import Mathlib

/-!
Verification of the EZSetting JSON editor core (src/json_editor.cpp).

The editor manipulates an in-memory `ordered_json` document, that is,
`nlohmann::basic_json` instantiated with an insertion-order-preserving
`fifo_map` object container (src/json_types.hpp).  This file gives a shallow
embedding of the document model and of the mutation/history core:

* `Json` models the document tree; objects are insertion-ordered association
  lists, mirroring `fifo_map`.
* `getNode` models `JsonEditor::GetNode` including the side effects of
  nlohmann's non-const `operator[]`: an absent object key is inserted with a
  null value, and an out-of-range array index silently enlarges the array
  with nulls.  The `catch (...) { return root; }` fallback is modelled by
  returning the position `[]` (the root).
* `executeEditValue`, `executeAddKey`, `executeRemoveKey`,
  `executeAddArrayElement`, `executeRemoveLastArrayElement`,
  `executeInsertArrayElement`, `executeRemoveArrayElement`,
  `executeRenameKey` model the `JsonEditor::Execute*` primitives; each
  returns the new document plus a flag which is `false` when the C++ code
  would let a `type_error` exception escape the function.
* `HistoryManager` models the undo/redo stacks of closures,
  `updateTreeEntries` / `getIndexFromEntries` / `restoreView` the view
  restoration code, `onRenameSubmit` the rename modal flow and
  `searchRecursive` / `onSearchSubmit` the search modal flow.

Machine integers: array indices travel through `std::stoul` (64-bit
`unsigned long`), modelled by `stoulModel` including its wrap-around on a
leading minus sign and its `out_of_range` failure above `2^64 - 1`.
`arrMax` models the deterministic `length_error` thrown by
`std::vector::insert` when an `operator[]` access would enlarge an array
beyond `max_size()` (`2^63 / sizeof(json) = 2^59` for libstdc++ on x86-64);
non-deterministic `bad_alloc` (actual memory exhaustion) is not modelled.
-/

/-- A JSON value as held by `ordered_json`: object member order is the
insertion order and is semantically significant (`fifo_map`). -/
inductive Json where
  | null : Json
  | bool (b : Bool) : Json
  | num (n : Int) : Json
  | str (s : String) : Json
  | arr (xs : List Json) : Json
  | obj (fs : List (String × Json)) : Json

/-- `fifo_map::find`: the value bound to a key, if present. -/
def lookupKey : List (String × Json) → String → Option Json
  | [], _ => none
  | (k, v) :: fs, key => if k = key then some v else lookupKey fs key

/-- `fifo_map::count(key) != 0`. -/
def hasKey (fs : List (String × Json)) (key : String) : Bool :=
  (lookupKey fs key).isSome

/-- Object write through `operator[](key) = v`: an existing binding is
overwritten in place (its position in the order is kept); an absent key is
inserted at the end of the insertion order. -/
def objSet : List (String × Json) → String → Json → List (String × Json)
  | [], key, v => [(key, v)]
  | (k, w) :: fs, key, v =>
      if k = key then (k, v) :: fs else (k, w) :: objSet fs key v

/-- `erase(key)` on an object: removes the binding of `key`; no-op when the
key is absent. -/
def objErase : List (String × Json) → String → List (String × Json)
  | [], _ => []
  | (k, v) :: fs, key => if k = key then fs else (k, v) :: objErase fs key

/-- Modify the value bound to `key` in place; no-op when the key is absent. -/
def modKey : List (String × Json) → String → (Json → Json) → List (String × Json)
  | [], _, _ => []
  | (k, v) :: fs, key, f => if k = key then (k, f v) :: fs else (k, v) :: modKey fs key f

/-- Modify the `i`-th element of a list in place; no-op when out of range. -/
def modNth : List Json → Nat → (Json → Json) → List Json
  | [], _, _ => []
  | x :: xs, 0, f => f x :: xs
  | x :: xs, i + 1, f => x :: modNth xs i f

/-- `std::vector::insert(begin() + i, v)`; only called under the guard
`i ≤ length` by `ExecuteInsertArrayElement`. -/
def insertAtL : List Json → Nat → Json → List Json
  | xs, 0, v => v :: xs
  | [], _ + 1, _ => []
  | x :: xs, i + 1, v => x :: insertAtL xs i v

/-- The characters accepted by `isspace` in the default locale, skipped by
`std::stoul` before the number. -/
def isSpaceChar (c : Char) : Bool :=
  c = ' ' || c = '\t' || c = '\n' || c.toNat = 11 || c.toNat = 12 || c = '\r'

/-- Modulus of C++ `unsigned long` (64-bit on the targeted platforms). -/
def ulongMod : Nat := 2 ^ 64

/-- Digit run of `std::stoul` after sign handling: at least one decimal digit
is required (`std::invalid_argument` otherwise, modelled as `none`); a value
whose magnitude exceeds `ULONG_MAX` raises `std::out_of_range` (`none`); a
leading minus sign wraps the value in unsigned arithmetic. -/
def stoulDigits (cs : List Char) (neg : Bool) : Option Nat :=
  let ds := cs.takeWhile (fun c => c.isDigit)
  if ds.isEmpty then none
  else
    let m := ds.foldl (fun acc c => acc * 10 + (c.toNat - 48)) 0
    if ulongMod ≤ m then none
    else some (if neg then (ulongMod - m) % ulongMod else m)

/-- `std::stoul(s)` with the default base 10: skip leading whitespace, accept
an optional sign, then parse a run of decimal digits (trailing characters are
ignored).  `none` models a thrown `std::invalid_argument`/`std::out_of_range`. -/
def stoulModel (s : String) : Option Nat :=
  match s.toList.dropWhile isSpaceChar with
  | '+' :: rest => stoulDigits rest false
  | '-' :: rest => stoulDigits rest true
  | rest => stoulDigits rest false

/-- A resolved path segment: object member access by key or array access by
numeric index. -/
inductive Seg where
  | key (k : String)
  | idx (i : Nat)
deriving DecidableEq

/-- Read the node at a resolved position. -/
def getAt : Json → List Seg → Option Json
  | d, [] => some d
  | .obj fs, .key k :: p =>
      match lookupKey fs k with
      | some v => getAt v p
      | none => none
  | .arr xs, .idx i :: p =>
      match xs[i]? with
      | some v => getAt v p
      | none => none
  | _, _ :: _ => none

/-- Rewrite the node at a resolved position (no-op on an invalid position). -/
def modAt : Json → List Seg → (Json → Json) → Json
  | d, [], f => f d
  | .obj fs, .key k :: p, f => .obj (modKey fs k (fun v => modAt v p f))
  | .arr xs, .idx i :: p, f => .arr (modNth xs i (fun v => modAt v p f))
  | d, _ :: _, _ => d

/-- Replace the node at a resolved position. -/
def setAt (d : Json) (p : List Seg) (v : Json) : Json :=
  modAt d p (fun _ => v)

/-- The node at a resolved position, with the (unreachable under the
`getNode` invariant) fallback `null`. -/
def nodeAt (d : Json) (p : List Seg) : Json :=
  (getAt d p).getD .null

/-- Auto-vivification of nlohmann's non-const object `operator[]`: an absent
key is inserted at the end of the order with a null value. -/
def vivify (k : String) : Json → Json
  | .obj fs => .obj (fs ++ [(k, .null)])
  | d => d

/-- Auto-enlargement of nlohmann's non-const array `operator[]`: the array is
silently filled up with nulls so that index `i` becomes valid. -/
def extendArr (i : Nat) : Json → Json
  | .arr xs => .arr (xs ++ List.replicate (i + 1 - xs.length) .null)
  | d => d

/-- Largest representable `std::vector` size for the array container
(`max_size()`); an `operator[]` access at or beyond this index makes the
enlargement throw `length_error`, which `GetNode` catches. -/
def arrMax : Nat := 2 ^ 59

/-- Walk of `JsonEditor::GetNode` from the node at position `pos`: at an
object, `operator[]` by key (inserting a null member when absent); at an
array, `std::stoul` then `operator[]` by index (enlarging with nulls when out
of range); any other node kind leaves the segment without effect; a thrown
exception (`stoul` failure, or enlargement past `max_size()`) is caught and
the document root (position `[]`) is returned.  The returned document carries
the side effects performed so far. -/
def getNodeGo : Json → List Seg → List String → Json × List Seg
  | doc, pos, [] => (doc, pos)
  | doc, pos, s :: rest =>
      match nodeAt doc pos with
      | .obj fs =>
          if hasKey fs s then getNodeGo doc (pos ++ [.key s]) rest
          else getNodeGo (modAt doc pos (vivify s)) (pos ++ [.key s]) rest
      | .arr xs =>
          match stoulModel s with
          | none => (doc, [])
          | some i =>
              if i < xs.length then getNodeGo doc (pos ++ [.idx i]) rest
              else if i < arrMax then
                getNodeGo (modAt doc pos (extendArr i)) (pos ++ [.idx i]) rest
              else (doc, [])
      | _ => getNodeGo doc pos rest

/-- `JsonEditor::GetNode(root, path)`: returns the document after the walk's
side effects together with the position of the returned reference
(`[]` = the document root, also used as the failure fallback). -/
def getNode (doc : Json) (path : List String) : Json × List Seg :=
  getNodeGo doc [] path

/-- Side-effect-free resolution: `some pos` exactly when the walk of
`GetNode` succeeds without inserting members, without enlarging arrays and
without skipping a segment at a non-container node.  Used to state the
preconditions under which the UI commits operations. -/
def resolveStrict : Json → List String → Option (List Seg)
  | _, [] => some []
  | .obj fs, s :: rest =>
      match lookupKey fs s with
      | some v => (resolveStrict v rest).map (fun q => .key s :: q)
      | none => none
  | .arr xs, s :: rest =>
      match stoulModel s with
      | some i =>
          match xs[i]? with
          | some v => (resolveStrict v rest).map (fun q => .idx i :: q)
          | none => none
      | none => none
  | _, _ :: _ => none

/-- Object assignment `node[key] = v` on an object node (overwrite in place
or insert at the end). -/
def objSetJ (key : String) (v : Json) : Json → Json
  | .obj fs => .obj (objSet fs key v)
  | d => d

/-- Object erase `node.erase(key)` on an object node. -/
def objEraseJ (key : String) : Json → Json
  | .obj fs => .obj (objErase fs key)
  | d => d

/-- Array assignment `node[i] = v` on an array node, including the silent
enlargement with nulls when `i` is out of range. -/
def arrSetExtend (i : Nat) (v : Json) : Json → Json
  | .arr xs => .arr ((xs ++ List.replicate (i + 1 - xs.length) Json.null).set i v)
  | d => d

/-- `push_back` on an array node. -/
def arrPush (v : Json) : Json → Json
  | .arr xs => .arr (xs ++ [v])
  | d => d

/-- `erase(size() - 1)` on a non-empty array node. -/
def arrPop : Json → Json
  | .arr xs => .arr (xs.dropLast)
  | d => d

/-- `insert(begin() + i, v)` on an array node. -/
def arrInsertAt (i : Nat) (v : Json) : Json → Json
  | .arr xs => .arr (insertAtL xs i v)
  | d => d

/-- `erase(i)` on an array node. -/
def arrEraseAt (i : Nat) : Json → Json
  | .arr xs => .arr (xs.eraseIdx i)
  | d => d

/-- `JsonEditor::ExecuteEditValue(path, key, value)`: resolves the parent
with `GetNode`; on an array parent, `parent[stoul(key)] = value` inside a
`try` block (a `stoul` failure or an enlargement past `max_size()` is
swallowed); otherwise `parent[key] = value`, which on an object overwrites or
inserts, on null first converts the node to an object, and on any other
scalar throws a `type_error` that escapes the function (flag `false`). -/
def executeEditValue (doc : Json) (path : List String) (key : String) (v : Json) :
    Json × Bool :=
  let r := getNode doc path
  match nodeAt r.1 r.2 with
  | .arr _ =>
      match stoulModel key with
      | none => (r.1, true)
      | some i =>
          if i < arrMax then (modAt r.1 r.2 (arrSetExtend i v), true) else (r.1, true)
  | .obj _ => (modAt r.1 r.2 (objSetJ key v), true)
  | .null => (setAt r.1 r.2 (.obj [(key, v)]), true)
  | _ => (r.1, false)

/-- `JsonEditor::ExecuteAddKey(path, key, value)`: `GetNode(path)[key] = value`.
On an object this overwrites an existing binding in place or inserts at the
end of the order; on null it converts the node to a one-member object; on an
array or a scalar, `operator[](key)` throws a `type_error` that escapes. -/
def executeAddKey (doc : Json) (path : List String) (key : String) (v : Json) :
    Json × Bool :=
  let r := getNode doc path
  match nodeAt r.1 r.2 with
  | .obj _ => (modAt r.1 r.2 (objSetJ key v), true)
  | .null => (setAt r.1 r.2 (.obj [(key, v)]), true)
  | _ => (r.1, false)

/-- `JsonEditor::ExecuteRemoveKey(path, key)`: `GetNode(path).erase(key)`;
valid only on an object (no-op when the key is absent); on any other node
kind `erase(key)` throws a `type_error` that escapes. -/
def executeRemoveKey (doc : Json) (path : List String) (key : String) :
    Json × Bool :=
  let r := getNode doc path
  match nodeAt r.1 r.2 with
  | .obj _ => (modAt r.1 r.2 (objEraseJ key), true)
  | _ => (r.1, false)

/-- `JsonEditor::ExecuteAddArrayElement(path, value)`: `push_back`; on null
the node first becomes an empty array; on an object or scalar `push_back`
throws a `type_error` that escapes. -/
def executeAddArrayElement (doc : Json) (path : List String) (v : Json) :
    Json × Bool :=
  let r := getNode doc path
  match nodeAt r.1 r.2 with
  | .arr _ => (modAt r.1 r.2 (arrPush v), true)
  | .null => (setAt r.1 r.2 (.arr [v]), true)
  | _ => (r.1, false)

/-- `JsonEditor::ExecuteRemoveLastArrayElement(path)`: guarded by
`!arr.empty()` (null and empty containers report empty, scalars do not);
`erase(size() - 1)` is valid only on an array and throws a `type_error` on
other node kinds. -/
def executeRemoveLastArrayElement (doc : Json) (path : List String) :
    Json × Bool :=
  let r := getNode doc path
  match nodeAt r.1 r.2 with
  | .null => (r.1, true)
  | .arr xs => if xs.isEmpty then (r.1, true) else (modAt r.1 r.2 arrPop, true)
  | .obj fs => if fs.isEmpty then (r.1, true) else (r.1, false)
  | _ => (r.1, false)

/-- `JsonEditor::ExecuteInsertArrayElement(path, index, value)`: no-op unless
the node is an array and `index ≤ size()`.  The C++ `int` index is only ever
called with the non-negative remembered deletion index, modelled as `Nat`. -/
def executeInsertArrayElement (doc : Json) (path : List String) (i : Nat) (v : Json) :
    Json × Bool :=
  let r := getNode doc path
  match nodeAt r.1 r.2 with
  | .arr xs => if i ≤ xs.length then (modAt r.1 r.2 (arrInsertAt i v), true) else (r.1, true)
  | _ => (r.1, true)

/-- `JsonEditor::ExecuteRemoveArrayElement(path, index)`: no-op unless the
node is an array and `index < size()`. -/
def executeRemoveArrayElement (doc : Json) (path : List String) (i : Nat) :
    Json × Bool :=
  let r := getNode doc path
  match nodeAt r.1 r.2 with
  | .arr xs => if i < xs.length then (modAt r.1 r.2 (arrEraseAt i), true) else (r.1, true)
  | _ => (r.1, true)

/-- `JsonEditor::ExecuteRenameKey(path, old_key, new_key)`: the statement
`node[new_key] = node[old_key]` evaluates the right-hand side first (C++17),
inserting a null binding for `old_key` when absent, then writes its value
under `new_key` (overwrite in place or insert at the end), and finally
`node.erase(old_key)`.  When `new_key = old_key` this erases the binding
altogether.  On null the node becomes an object first; on an array or scalar
`operator[](key)` throws a `type_error` that escapes. -/
def executeRenameKey (doc : Json) (path : List String) (oldK newK : String) :
    Json × Bool :=
  let r := getNode doc path
  match nodeAt r.1 r.2 with
  | .obj fs =>
      let fs1 := if hasKey fs oldK then fs else fs ++ [(oldK, Json.null)]
      let v := (lookupKey fs1 oldK).getD .null
      (setAt r.1 r.2 (.obj (objErase (objSet fs1 newK v) oldK)), true)
  | .null =>
      (setAt r.1 r.2 (.obj (objErase (objSet [(oldK, Json.null)] newK Json.null) oldK)), true)
  | _ => (r.1, false)

/-- The closures captured into `EditAction::undo` / `EditAction::redo`: each
is an `Execute*` member call with its captured arguments. -/
inductive ClosOp where
  | editValue (path : List String) (key : String) (v : Json)
  | addKey (path : List String) (key : String) (v : Json)
  | removeKey (path : List String) (key : String)
  | addArrayElem (path : List String) (v : Json)
  | removeLastArrayElem (path : List String)
  | insertArrayElem (path : List String) (i : Nat) (v : Json)
  | removeArrayElem (path : List String) (i : Nat)
  | renameKey (path : List String) (oldK newK : String)

/-- Run a captured closure on the document. -/
def runClos : ClosOp → Json → Json × Bool
  | .editValue p k v, d => executeEditValue d p k v
  | .addKey p k v, d => executeAddKey d p k v
  | .removeKey p k, d => executeRemoveKey d p k
  | .addArrayElem p v, d => executeAddArrayElement d p v
  | .removeLastArrayElem p, d => executeRemoveLastArrayElement d p
  | .insertArrayElem p i v, d => executeInsertArrayElement d p i v
  | .removeArrayElem p i, d => executeRemoveArrayElement d p i
  | .renameKey p o n, d => executeRenameKey d p o n

/-- `EditAction`: undo/redo closures plus the view-restoration data. -/
structure EditAction where
  undoClos : ClosOp
  redoClos : ClosOp
  path : List String
  focusKey : String

/-- `HistoryManager`: two LIFO stacks of `EditAction` (head = top). -/
structure HistoryManager where
  undoStack : List EditAction
  redoStack : List EditAction

/-- `HistoryManager::Push`: append to the undo stack and empty the redo
stack entirely. -/
def HistoryManager.push (h : HistoryManager) (a : EditAction) : HistoryManager :=
  { undoStack := a :: h.undoStack, redoStack := [] }

/-- `HistoryManager::CanUndo`. -/
def HistoryManager.canUndo (h : HistoryManager) : Bool :=
  !h.undoStack.isEmpty

/-- `HistoryManager::CanRedo`. -/
def HistoryManager.canRedo (h : HistoryManager) : Bool :=
  !h.redoStack.isEmpty

/-- `HistoryManager::Undo`: on an empty undo stack return `nullptr` (the
`none` component) and do nothing.  Otherwise pop the top action, run its undo
closure on the document, push the action onto the redo stack and return it.
When the closure lets an exception escape (final flag `false`), the pop has
already happened but the redo push has not, and the exception propagates. -/
def HistoryManager.undoStep (h : HistoryManager) (doc : Json) :
    HistoryManager × Json × Option EditAction × Bool :=
  match h.undoStack with
  | [] => (h, doc, none, true)
  | a :: rest =>
      let r := runClos a.undoClos doc
      if r.2 then ({ undoStack := rest, redoStack := a :: h.redoStack }, r.1, some a, true)
      else ({ undoStack := rest, redoStack := h.redoStack }, r.1, none, false)

/-- `HistoryManager::Redo`, symmetric to `HistoryManager::Undo`. -/
def HistoryManager.redoStep (h : HistoryManager) (doc : Json) :
    HistoryManager × Json × Option EditAction × Bool :=
  match h.redoStack with
  | [] => (h, doc, none, true)
  | a :: rest =>
      let r := runClos a.redoClos doc
      if r.2 then ({ undoStack := a :: h.undoStack, redoStack := rest }, r.1, some a, true)
      else ({ undoStack := h.undoStack, redoStack := rest }, r.1, none, false)

/-- The character for a decimal digit `d < 10`. -/
def digitChar (d : Nat) : Char :=
  match d with
  | 0 => '0' | 1 => '1' | 2 => '2' | 3 => '3' | 4 => '4'
  | 5 => '5' | 6 => '6' | 7 => '7' | 8 => '8' | _ => '9'

/-- Decimal digit characters of `n`, most significant first; the fuel
argument strictly bounds `n` and makes the recursion structural. -/
def decDigitsGo : Nat → Nat → List Char
  | 0, _ => []
  | fuel + 1, n =>
      if n < 10 then [digitChar n]
      else decDigitsGo fuel (n / 10) ++ [digitChar (n % 10)]

/-- `std::to_string` on an unsigned value: plain decimal notation. -/
def natToDecimal (n : Nat) : String :=
  String.mk (decDigitsGo (n + 1) n)

/-- `json::value_t`: the type tag of a node (`discarded` is used for the
synthetic ".." entry). -/
inductive ValueKind where
  | null | boolean | number | string | array | object | discarded
deriving DecidableEq

/-- The `type()` of a node. -/
def kindOf : Json → ValueKind
  | .null => .null
  | .bool _ => .boolean
  | .num _ => .number
  | .str _ => .string
  | .arr _ => .array
  | .obj _ => .object

/-- `TreeEntry`: label shown in the menu, raw key/index string, type tag. -/
structure TreeEntry where
  label : String
  key : String
  kind : ValueKind
deriving DecidableEq

/-- The " (Object)" / " (Array)" label suffix for container children. -/
def typeSuffix : Json → String
  | .obj _ => " (Object)"
  | .arr _ => " (Array)"
  | _ => ""

/-- `JsonEditor::UpdateTreeEntries`: regenerate the listing for the node at
`path`; a synthetic ".." entry comes first on a non-root path; an object
lists its members in insertion order, an array its elements in index order;
any other node kind yields no child entries.  The call resolves the path
with `GetNode`, whose document side effects are carried in the first
component. -/
def updateTreeEntries (doc : Json) (path : List String) : Json × List TreeEntry :=
  let base : List TreeEntry := if path.isEmpty then [] else [⟨"..", "..", .discarded⟩]
  let r := getNode doc path
  match nodeAt r.1 r.2 with
  | .obj fs => (r.1, base ++ fs.map (fun p => ⟨p.1 ++ typeSuffix p.2, p.1, kindOf p.2⟩))
  | .arr xs =>
      (r.1, base ++ (List.range xs.length).map (fun i =>
        let v := (xs[i]?).getD .null
        ⟨natToDecimal i ++ typeSuffix v, natToDecimal i, kindOf v⟩))
  | _ => (r.1, base)

/-- Loop body of `JsonEditor::GetIndexFromEntries` (`i` is the index of the
first entry of the remaining list). -/
def getIndexFromEntriesGo : List TreeEntry → String → Nat → Int
  | [], _, _ => -1
  | e :: es, key, i =>
      if e.key = key then (i : Int) else getIndexFromEntriesGo es key (i + 1)

/-- `JsonEditor::GetIndexFromEntries`: index of the first entry whose key
equals `key`, or `-1` when there is none. -/
def getIndexFromEntries (entries : List TreeEntry) (key : String) : Int :=
  getIndexFromEntriesGo entries key 0

/-- `JsonEditor::GetCurrentSelectionKey`: the key of the selected entry, or
"[None]" when the listing is empty or the index is out of range. -/
def getCurrentSelectionKey (entries : List TreeEntry) (idx : Int) : String :=
  if idx < 0 then "[None]"
  else
    match entries[idx.toNat]? with
    | some e => e.key
    | none => "[None]"

/-- Document side effect of `JsonEditor::GetCurrentSelectedNode`: when a real
entry (not "..") is selected it resolves the current path again with
`GetNode` and, on an array parent, takes `parent[stoul(key)]`, which can
enlarge the array when the key parses to an out-of-range index.  An object
parent is read with a `contains` guard and is never mutated. -/
def selectedNodeDocEffect (doc : Json) (path : List String)
    (entries : List TreeEntry) (idx : Int) : Json :=
  if idx < 0 then doc
  else
    match entries[idx.toNat]? with
    | none => doc
    | some e =>
        if e.key = ".." then doc
        else
          let r := getNode doc path
          match nodeAt r.1 r.2 with
          | .arr xs =>
              match stoulModel e.key with
              | none => r.1
              | some i =>
                  if i < xs.length then r.1
                  else if i < arrMax then modAt r.1 r.2 (extendArr i) else r.1
          | _ => r.1

/-- Navigation state of the editor: the current path, the regenerated
listing and the selected index (a C++ `int`). -/
structure ViewState where
  currentPath : List String
  entries : List TreeEntry
  selectedIndex : Int
deriving DecidableEq

/-- `JsonEditor::RestoreView(action)`: set the current path to the action's
path, regenerate the listing, select `GetIndexFromEntries(action.focus_key)`
(which is `-1` when the key is not in the listing), and refresh the editor
pane (whose `GetCurrentSelectedNode` call is the only further document
effect). -/
def restoreView (doc : Json) (a : EditAction) : Json × ViewState :=
  let r := updateTreeEntries doc a.path
  let idx := getIndexFromEntries r.2 a.focusKey
  (selectedNodeDocEffect r.1 a.path r.2 idx, ⟨a.path, r.2, idx⟩)

/-- Document side effects of `JsonEditor::RefreshTreeAndCloseModal(idx)`:
regenerate the listing, clamp the focus index into range (falling back to
0), select it and refresh the editor pane. -/
def refreshTreeAndCloseModalDoc (doc : Json) (path : List String) (idx : Int) : Json :=
  let r := updateTreeEntries doc path
  let idx2 := if idx < 0 ∨ (r.2.length : Int) ≤ idx then 0 else idx
  selectedNodeDocEffect r.1 path r.2 idx2

/-- `JsonEditor::PerformUndo` restricted to its document/history effects:
`HistoryManager::Undo` runs the popped action's undo closure, then
`RestoreView` resolves the action's path.  The flag is `false` when an
exception escaped the closure (the event loop, and with it the program,
stops in that case). -/
def performUndoDoc (s : Json × HistoryManager) : (Json × HistoryManager) × Bool :=
  if s.2.canUndo then
    let r := s.2.undoStep s.1
    match r.2.2.1 with
    | some a => (((restoreView r.2.1 a).1, r.1), true)
    | none => ((r.2.1, r.1), r.2.2.2)
  else (s, true)

/-- `JsonEditor::PerformRedo`, symmetric to `performUndoDoc`. -/
def performRedoDoc (s : Json × HistoryManager) : (Json × HistoryManager) × Bool :=
  if s.2.canRedo then
    let r := s.2.redoStep s.1
    match r.2.2.1 with
    | some a => (((restoreView r.2.1 a).1, r.1), true)
    | none => ((r.2.1, r.1), r.2.2.2)
  else (s, true)

/-- `JsonEditor::CleanStringForJson`: remove every newline character. -/
def cleanStringForJson (s : String) : String :=
  String.mk (s.toList.filter (fun c => c ≠ '\n'))

/-- `JsonEditor::UpdateJsonValue(parent, key, text)` at the value level: `v`
stands for the value produced from the cleaned text (`json::parse`, falling
back to the text as a string literal).  The parent is resolved with
`GetNode` by the caller; on an array parent, taking `&parent[stoul(key)]`
sits in a `try` block (a parse failure or an enlargement past `max_size()`
returns without effect) and can silently enlarge the array; on an object
parent `parent[key]` inserts the key when absent; on any other parent the
function returns without effect. -/
def updateJsonValueV (doc : Json) (path : List String) (key : String) (v : Json) : Json :=
  let r := getNode doc path
  match nodeAt r.1 r.2 with
  | .arr _ =>
      match stoulModel key with
      | none => r.1
      | some i => if i < arrMax then modAt r.1 r.2 (arrSetExtend i v) else r.1
  | .obj _ => modAt r.1 r.2 (objSetJ key v)
  | _ => r.1

/-- Hint text of `UpdateEditorPane`: it first clears the hint, then sets
"[Enter] to save change" when the selected child is a primitive (editable)
node, resolving the current path and child exactly as
`GetCurrentSelectedNode` does. -/
def editorPaneHint (doc : Json) (path : List String)
    (entries : List TreeEntry) (idx : Int) : String :=
  if idx < 0 then ""
  else
    match entries[idx.toNat]? with
    | none => ""
    | some e =>
        if e.key = ".." then ""
        else
          let r := getNode doc path
          match nodeAt r.1 r.2 with
          | .obj fs =>
              match lookupKey fs e.key with
              | some (.obj _) | some (.arr _) | none => ""
              | some _ => "[Enter] to save change"
          | .arr xs =>
              match stoulModel e.key with
              | none => ""
              | some i =>
                  match xs[i]? with
                  | some (.obj _) | some (.arr _) => ""
                  | some _ => "[Enter] to save change"
                  | none => if i < arrMax then "[Enter] to save change" else ""
          | _ => ""

/-- The editor state touched by the rename modal flow.  The viewer/editable
text buffers are display-only and are not modelled. -/
structure EditorState where
  doc : Json
  currentPath : List String
  entries : List TreeEntry
  selectedIndex : Int
  renameKeyInput : String
  editorHint : String
  modalState : Int
  history : HistoryManager

/-- `JsonEditor::OnRenameSubmit`: resolve the current node with `GetNode`
(whose side effects persist even on the early-return paths); close the modal
when it is not an object; reject an empty cleaned key and a cleaned key that
differs from the selected key but already exists in the object (hint only,
no mutation, no history push); otherwise run `ExecuteRenameKey`, push the
action pair, regenerate the listing, and run `RefreshTreeAndCloseModal` on
the index of the new key. -/
def onRenameSubmit (st : EditorState) : EditorState :=
  let r := getNode st.doc st.currentPath
  match nodeAt r.1 r.2 with
  | .obj fs =>
      let cleaned := cleanStringForJson st.renameKeyInput
      if cleaned = "" then
        { st with doc := r.1, editorHint := "Error: Key cannot be empty." }
      else
        let currentKey := getCurrentSelectionKey st.entries st.selectedIndex
        if cleaned ≠ currentKey ∧ hasKey fs cleaned then
          { st with doc := r.1, editorHint := "Error: This key is already in use." }
        else
          let d2 := (executeRenameKey r.1 st.currentPath currentKey cleaned).1
          let hm := st.history.push
            ⟨.renameKey st.currentPath cleaned currentKey,
             .renameKey st.currentPath currentKey cleaned,
             st.currentPath, cleaned⟩
          let r3 := updateTreeEntries d2 st.currentPath
          let idx := getIndexFromEntries r3.2 cleaned
          let r4 := updateTreeEntries r3.1 st.currentPath
          let idx2 := if idx < 0 ∨ (r4.2.length : Int) ≤ idx then 0 else idx
          let d5 := selectedNodeDocEffect r4.1 st.currentPath r4.2 idx2
          { st with
            doc := d5
            entries := r4.2
            selectedIndex := idx2
            editorHint := editorPaneHint r4.1 st.currentPath r4.2 idx2
            modalState := 0
            history := hm }
  | _ => { st with doc := r.1, modalState := 0 }

/-- The `get_path_string` lambda in `OnSearchSubmit`: segments joined by
" > ". -/
def getPathString (p : List String) : String :=
  String.intercalate " > " p

/-- Character-list check that the first list is an initial run of the
second. -/
def headMatches : List Char → List Char → Bool
  | [], _ => true
  | _ :: _, [] => false
  | c :: cs, d :: ds => c = d && headMatches cs ds

/-- Contiguous occurrence of `needle` anywhere in `hay`. -/
def occursIn (needle hay : List Char) : Bool :=
  if headMatches needle hay then true
  else
    match hay with
    | [] => false
    | _ :: t => occursIn needle t

/-- `s.find(q) != std::string::npos`: case-sensitive contiguous substring
test (an empty `q` is always found, as in C++). -/
def strContains (s q : String) : Bool :=
  occursIn q.toList s.toList

mutual
/-- The recursive lambda `search_recursive` in `OnSearchSubmit`: for each
object member, first a "Key:" result when the key contains the query, then a
"Val:" result when the value is a string containing the query, then the
recursion into the value; for each array element, a "Val:" result for a
matching string element, then the recursion.  Results are (path, label)
pairs in emission order (`search_results_` and `search_result_labels_` are
pushed in lockstep). -/
def searchRecursive (q : String) : Json → List String → List (List String × String)
  | .obj fs, path => searchFields q fs path
  | .arr xs, path => searchElems q xs path 0
  | _, _ => []

/-- Object-member half of `search_recursive`. -/
def searchFields (q : String) : List (String × Json) → List String → List (List String × String)
  | [], _ => []
  | (k, v) :: fs, path =>
      let cur := path ++ [k]
      (if strContains k q then
        [(cur, "Key: " ++ k ++ " (Path: " ++ getPathString cur ++ ")")] else [])
      ++ (match v with
          | .str s =>
              if strContains s q then
                [(cur, "Val: " ++ s ++ " (Path: " ++ getPathString cur ++ ")")] else []
          | _ => [])
      ++ searchRecursive q v cur
      ++ searchFields q fs path

/-- Array-element half of `search_recursive` (`i` is the index of the first
element of the remaining list). -/
def searchElems (q : String) : List Json → List String → Nat → List (List String × String)
  | [], _, _ => []
  | v :: xs, path, i =>
      let cur := path ++ [natToDecimal i]
      (match v with
        | .str s =>
            if strContains s q then
              [(cur, "Val: " ++ s ++ " (Path: " ++ getPathString cur ++ ")")] else []
        | _ => [])
      ++ searchRecursive q v cur
      ++ searchElems q xs path (i + 1)
end

/-- `JsonEditor::OnSearchSubmit`: `none` when the query is empty (the
handler returns at once, keeping the previous results); otherwise the
document after the walk (searching from the current path resolves it with
`GetNode`) together with the emitted (path, label) results, searching either
from the document root with an empty starting path or from the current node
with the current path as starting path. -/
def onSearchSubmit (doc : Json) (path : List String) (query : String) (fromRoot : Bool) :
    Option (Json × List (List String × String)) :=
  if query = "" then none
  else if fromRoot then some (doc, searchRecursive query doc [])
  else
    let r := getNode doc path
    some (r.1, searchRecursive query (nodeAt r.1 r.2) path)

/-- Key-based order on object members, used only to canonicalize documents
up to object member order. -/
def keyLE (p q : String × Json) : Prop := p.1 ≤ q.1

instance : DecidableRel keyLE := fun p q => inferInstanceAs (Decidable (p.1 ≤ q.1))

instance : IsTotal (String × Json) keyLE := ⟨fun p q => le_total p.1 q.1⟩

instance : IsTrans (String × Json) keyLE := ⟨fun _ _ _ h h2 => le_trans h h2⟩

/-- Strict key order on object members. -/
def keyLT (p q : String × Json) : Prop := p.1 < q.1

instance : IsAntisymm (String × Json) keyLT :=
  ⟨fun _ _ h h2 => absurd (lt_trans h h2) (lt_irrefl _)⟩

/-- Sort object members by key (specification device, not part of the
program). -/
def sortK (l : List (String × Json)) : List (String × Json) :=
  l.insertionSort keyLE

mutual
/-- Canonical form of a document: every object's members sorted by key,
recursively.  Two documents are equal up to object member order exactly when
their canonical forms are equal (specification device). -/
def canon : Json → Json
  | .null => .null
  | .bool b => .bool b
  | .num n => .num n
  | .str s => .str s
  | .arr xs => .arr (canonList xs)
  | .obj fs => .obj (sortK (canonFields fs))

/-- Pointwise canonicalization of array elements. -/
def canonList : List Json → List Json
  | [] => []
  | x :: xs => canon x :: canonList xs

/-- Pointwise canonicalization of object member values. -/
def canonFields : List (String × Json) → List (String × Json)
  | [] => []
  | (k, v) :: fs => (k, canon v) :: canonFields fs
end

mutual
/-- Well-formedness: every object in the document has pairwise distinct
keys.  This holds for every document produced by the JSON parser (a
`fifo_map` cannot hold a key twice) and is preserved by all editor
operations. -/
def wfJ : Json → Bool
  | .null => true
  | .bool _ => true
  | .num _ => true
  | .str _ => true
  | .arr xs => wfList xs
  | .obj fs => decide ((fs.map Prod.fst).Nodup) && wfFields fs

/-- Well-formedness of array elements. -/
def wfList : List Json → Bool
  | [] => true
  | x :: xs => wfJ x && wfList xs

/-- Well-formedness of object member values. -/
def wfFields : List (String × Json) → Bool
  | [] => true
  | (_, v) :: fs => wfJ v && wfFields fs
end

/-- The primitive mutations the editor commits to its history, with the data
captured at commit time: the parent path, keys/indices, and for reversible
deletion/edition the overwritten value.  `editValue` records the old and the
newly written value (the flow pushes only when they differ, which is part of
`commitValid`); its parent is an object: on an array parent the flow
`OnEditorEnter` throws a `type_error` while rebuilding `new_node_ptr` via
`parent_node[key]` before reaching `HistoryManager::Push`, so no array edit
is ever committed. -/
inductive EOp where
  | editValue (path : List String) (key : String) (oldV newV : Json)
  | addKey (path : List String) (key : String)
  | addArrayElem (path : List String) (v : Json)
  | removeKey (path : List String) (key : String) (oldV : Json)
  | removeArrayElem (path : List String) (i : Nat) (oldV : Json)
  | renameKey (path : List String) (oldK newK : String)

/-- The document mutation a commit flow performs (its `Execute*` /
`UpdateJsonValue` call). -/
def commitApply : EOp → Json → Json
  | .editValue p k _ newV, d => updateJsonValueV d p k newV
  | .addKey p k, d => (executeAddKey d p k .null).1
  | .addArrayElem p v, d => (executeAddArrayElement d p v).1
  | .removeKey p k _, d => (executeRemoveKey d p k).1
  | .removeArrayElem p i _, d => (executeRemoveArrayElement d p i).1
  | .renameKey p o n, d => (executeRenameKey d p o n).1

/-- The `EditAction` each commit flow pushes, with the closures it captures
(`d` is the document before the mutation; only the array-append flow reads
the document, for its `std::to_string(node.size() - 1)` focus key). -/
def commitAction : EOp → Json → EditAction
  | .editValue p k oldV newV, _ =>
      ⟨.editValue p k oldV, .editValue p k newV, p, k⟩
  | .addKey p k, _ =>
      ⟨.removeKey p k, .addKey p k .null, p, k⟩
  | .addArrayElem p v, d =>
      let r := getNode d p
      let len := match nodeAt r.1 r.2 with
        | .arr xs => xs.length
        | _ => 0
      ⟨.removeLastArrayElem p, .addArrayElem p v, p, natToDecimal len⟩
  | .removeKey p k oldV, _ =>
      ⟨.addKey p k oldV, .removeKey p k, p, k⟩
  | .removeArrayElem p i oldV, _ =>
      ⟨.insertArrayElem p i oldV, .removeArrayElem p i, p,
       natToDecimal (if 0 < i then i - 1 else 0)⟩
  | .renameKey p o n, _ =>
      ⟨.renameKey p n o, .renameKey p o n, p, n⟩

/-- The preconditions under which the corresponding UI flow reaches its
`Execute*` call and its `HistoryManager::Push`: the parent path resolves
without side effects, the parent has the right kind, edited/deleted children
exist (their keys come from the regenerated listing), an edit changed the
value (`OnEditorEnter` pushes only then) and wrote a well-formed value, the
added key is absent (the flow does not check this; adds over an existing key
are excluded here and treated separately), and a rename's new key is distinct
from the old one and absent (checked by `OnRenameSubmit`). -/
def commitValid : EOp → Json → Prop
  | .editValue path key oldV newV, d => ∃ pos fs,
      resolveStrict d path = some pos ∧ getAt d pos = some (.obj fs) ∧
      lookupKey fs key = some oldV ∧ oldV ≠ newV ∧ wfJ newV = true
  | .addKey path key, d => ∃ pos fs,
      resolveStrict d path = some pos ∧ getAt d pos = some (.obj fs) ∧
      lookupKey fs key = none
  | .addArrayElem path v, d => ∃ pos xs,
      resolveStrict d path = some pos ∧ getAt d pos = some (.arr xs) ∧
      wfJ v = true
  | .removeKey path key oldV, d => ∃ pos fs,
      resolveStrict d path = some pos ∧ getAt d pos = some (.obj fs) ∧
      lookupKey fs key = some oldV
  | .removeArrayElem path i oldV, d => ∃ pos xs,
      resolveStrict d path = some pos ∧ getAt d pos = some (.arr xs) ∧
      xs[i]? = some oldV
  | .renameKey path oldK newK, d => ∃ pos fs,
      resolveStrict d path = some pos ∧ getAt d pos = some (.obj fs) ∧
      (lookupKey fs oldK).isSome = true ∧ lookupKey fs newK = none ∧ oldK ≠ newK

/-- One committed mutation: the document change followed by the history
push.  The flows also refresh the listing and the editor pane; under
`commitValid` those resolutions are side-effect-free (proved below), so the
document component here is the mutation's result. -/
def commitStep (op : EOp) (s : Json × HistoryManager) : Json × HistoryManager :=
  (commitApply op s.1, s.2.push (commitAction op s.1))

/-- A chain of committed mutations. -/
def commitAll : List EOp → Json × HistoryManager → Json × HistoryManager
  | [], s => s
  | op :: ops, s => commitAll ops (commitStep op s)

/-- Validity of a chain of commits, each judged in the state it runs in. -/
inductive ValidSeq : Json → List EOp → Prop where
  | nil (d : Json) : ValidSeq d []
  | cons {d : Json} {op : EOp} {ops : List EOp} :
      commitValid op d → ValidSeq (commitApply op d) ops → ValidSeq d (op :: ops)

/-- `n` consecutive `PerformUndo` calls; stops early if an exception escapes
an undo closure (the program would have terminated). -/
def undoN : Nat → Json × HistoryManager → (Json × HistoryManager) × Bool
  | 0, s => (s, true)
  | n + 1, s =>
      let r := performUndoDoc s
      if r.2 then undoN n r.1 else (r.1, false)

/-- The document after a chain of committed mutations. -/
def docAfter : Json → List EOp → Json
  | d, [] => d
  | d, op :: ops => docAfter (commitApply op d) ops

/-- The actions a chain of commits pushes, in stack order (head = the last
commit's action). -/
def actionsFor : Json → List EOp → List EditAction
  | _, [] => []
  | d, op :: ops => actionsFor (commitApply op d) ops ++ [commitAction op d]

/-! ### Association-list lemmas -/

theorem lookupKey_append (fs gs : List (String × Json)) (k : String) :
    lookupKey (fs ++ gs) k =
      match lookupKey fs k with
      | some v => some v
      | none => lookupKey gs k := by
  induction fs with
  | nil => simp [lookupKey]
  | cons p fs ih =>
      obtain ⟨a, v⟩ := p
      by_cases h : a = k <;> simp [lookupKey, h, ih]

theorem lookupKey_objSet (fs : List (String × Json)) (k k' : String) (v : Json) :
    lookupKey (objSet fs k v) k' = if k' = k then some v else lookupKey fs k' := by
  induction fs with
  | nil =>
      by_cases h : k' = k
      · subst h
        simp [objSet, lookupKey]
      · have h2 : ¬(k = k') := fun h2 => h h2.symm
        simp [objSet, lookupKey, h, h2]
  | cons p fs ih =>
      obtain ⟨a, w⟩ := p
      by_cases h : a = k
      · subst h
        by_cases h2 : k' = a
        · subst h2
          simp [objSet, lookupKey]
        · have h3 : ¬(a = k') := fun h3 => h2 h3.symm
          simp [objSet, lookupKey, h2, h3]
      · by_cases h2 : a = k'
        · subst h2
          simp [objSet, lookupKey, h]
        · simp [objSet, lookupKey, h, h2, ih]

theorem lookupKey_objErase (fs : List (String × Json)) (k k' : String) (h : k' ≠ k) :
    lookupKey (objErase fs k) k' = lookupKey fs k' := by
  induction fs with
  | nil => simp [objErase]
  | cons p fs ih =>
      obtain ⟨a, w⟩ := p
      by_cases h2 : a = k
      · subst h2
        simp [objErase, lookupKey, Ne.symm h]
      · by_cases h3 : a = k'
        · subst h3
          simp [objErase, lookupKey, h2]
        · simp [objErase, lookupKey, h2, h3, ih]

theorem keys_objErase (fs : List (String × Json)) (k : String) :
    (objErase fs k).map Prod.fst = (fs.map Prod.fst).erase k := by
  induction fs with
  | nil => simp [objErase]
  | cons p fs ih =>
      obtain ⟨a, w⟩ := p
      by_cases h : a = k
      · subst h
        simp [objErase, List.erase_cons_head]
      · simp [objErase, h, List.erase_cons_tail, ih]

theorem lookupKey_none_of_not_mem_keys {fs : List (String × Json)} {k : String}
    (h : k ∉ fs.map Prod.fst) : lookupKey fs k = none := by
  induction fs with
  | nil => simp [lookupKey]
  | cons p fs ih =>
      obtain ⟨a, w⟩ := p
      simp only [List.map_cons, List.mem_cons] at h
      push_neg at h
      simp [lookupKey, Ne.symm h.1, ih h.2]

theorem mem_keys_of_lookupKey {fs : List (String × Json)} {k : String} {v : Json}
    (h : lookupKey fs k = some v) : k ∈ fs.map Prod.fst := by
  by_contra h2
  rw [lookupKey_none_of_not_mem_keys h2] at h
  cases h

theorem lookupKey_objErase_self {fs : List (String × Json)} {k : String}
    (hn : (fs.map Prod.fst).Nodup) : lookupKey (objErase fs k) k = none := by
  induction fs with
  | nil => simp [objErase, lookupKey]
  | cons p fs ih =>
      obtain ⟨a, w⟩ := p
      simp only [List.map_cons, List.nodup_cons] at hn
      by_cases h : a = k
      · subst h
        simp only [objErase, if_pos rfl]
        exact lookupKey_none_of_not_mem_keys hn.1
      · simp [objErase, lookupKey, h, ih hn.2]

theorem objErase_append_absent {fs : List (String × Json)} {k : String} (v : Json)
    (h : hasKey fs k = false) : objErase (fs ++ [(k, v)]) k = fs := by
  induction fs with
  | nil => simp [objErase]
  | cons p fs ih =>
      obtain ⟨a, w⟩ := p
      simp only [hasKey, lookupKey, Option.isSome] at h
      by_cases h2 : a = k
      · simp [h2] at h
      · simp only [hasKey] at ih
        simp only [h2, if_false] at h
        simp [objErase, h2, ih h]

theorem objSet_append_absent {fs : List (String × Json)} {k : String} (v : Json)
    (h : hasKey fs k = false) : objSet fs k v = fs ++ [(k, v)] := by
  induction fs with
  | nil => simp [objSet]
  | cons p fs ih =>
      obtain ⟨a, w⟩ := p
      simp only [hasKey, lookupKey, Option.isSome] at h
      by_cases h2 : a = k
      · simp [h2] at h
      · simp only [hasKey] at ih
        simp only [h2, if_false] at h
        simp [objSet, h2, ih h]

theorem objSet_lookup_self {fs : List (String × Json)} {k : String} {v : Json}
    (h : lookupKey fs k = some v) : objSet fs k v = fs := by
  induction fs with
  | nil => simp [lookupKey] at h
  | cons p fs ih =>
      obtain ⟨a, w⟩ := p
      by_cases h2 : a = k
      · subst h2
        simp [lookupKey] at h
        simp [objSet, h]
  
      · simp only [lookupKey, h2, if_false] at h
        simp [objSet, h2, ih h]

theorem objSet_objSet_same (fs : List (String × Json)) (k : String) (v w : Json) :
    objSet (objSet fs k v) k w = objSet fs k w := by
  induction fs with
  | nil => simp [objSet]
  | cons p fs ih =>
      obtain ⟨a, u⟩ := p
      by_cases h : a = k <;> simp [objSet, h, ih]

theorem keys_objSet_of_hasKey {fs : List (String × Json)} {k : String} (v : Json)
    (h : hasKey fs k = true) : (objSet fs k v).map Prod.fst = fs.map Prod.fst := by
  induction fs with
  | nil => simp [hasKey, lookupKey] at h
  | cons p fs ih =>
      obtain ⟨a, w⟩ := p
      by_cases h2 : a = k
      · simp [objSet, h2]
      · simp only [hasKey, lookupKey, h2, if_false] at h
        simp only [hasKey] at ih
        simp [objSet, h2, ih h]

theorem keys_modKey (fs : List (String × Json)) (k : String) (f : Json → Json) :
    (modKey fs k f).map Prod.fst = fs.map Prod.fst := by
  induction fs with
  | nil => simp [modKey]
  | cons p fs ih =>
      obtain ⟨a, w⟩ := p
      by_cases h : a = k <;> simp [modKey, h, ih]

theorem lookupKey_modKey (fs : List (String × Json)) (k k' : String) (f : Json → Json) :
    lookupKey (modKey fs k f) k' =
      if k' = k then (lookupKey fs k).map f else lookupKey fs k' := by
  induction fs with
  | nil => simp [modKey, lookupKey]
  | cons p fs ih =>
      obtain ⟨a, w⟩ := p
      by_cases h : a = k
      · subst h
        by_cases h2 : k' = a
        · subst h2
          simp [modKey, lookupKey]
        · have h3 : ¬(a = k') := fun h3 => h2 h3.symm
          simp [modKey, lookupKey, h2, h3]
      · by_cases h2 : a = k'
        · subst h2
          simp [modKey, lookupKey, h]
        · simp [modKey, lookupKey, h, h2, ih]

/-! ### Canonical-form lemmas -/

theorem sortK_perm (l : List (String × Json)) : l.Perm (sortK l) :=
  (List.perm_insertionSort keyLE l).symm

theorem sortK_sorted (l : List (String × Json)) : (sortK l).Sorted keyLE :=
  List.sorted_insertionSort keyLE l

theorem eq_of_perm_sortedK {l1 l2 : List (String × Json)} (hp : l1.Perm l2)
    (hs1 : l1.Sorted keyLE) (hs2 : l2.Sorted keyLE)
    (hn1 : (l1.map Prod.fst).Nodup) : l1 = l2 := by
  have hn2 : (l2.map Prod.fst).Nodup := (hp.map Prod.fst).nodup_iff.mp hn1
  have hlt1 : l1.Sorted keyLT := by
    have hpn : l1.Pairwise (fun p q : String × Json => p.1 ≠ q.1) :=
      List.pairwise_map.mp hn1
    exact (hs1.and hpn).imp (fun h => lt_of_le_of_ne h.1 h.2)
  have hlt2 : l2.Sorted keyLT := by
    have hpn : l2.Pairwise (fun p q : String × Json => p.1 ≠ q.1) :=
      List.pairwise_map.mp hn2
    exact (hs2.and hpn).imp (fun h => lt_of_le_of_ne h.1 h.2)
  exact List.eq_of_perm_of_sorted hp hlt1 hlt2

theorem keys_canonFields (fs : List (String × Json)) :
    (canonFields fs).map Prod.fst = fs.map Prod.fst := by
  induction fs with
  | nil => simp [canonFields]
  | cons p fs ih =>
      obtain ⟨a, v⟩ := p
      simp [canonFields, ih]

theorem lookupKey_canonFields (fs : List (String × Json)) (k : String) :
    lookupKey (canonFields fs) k = (lookupKey fs k).map canon := by
  induction fs with
  | nil => simp [canonFields, lookupKey]
  | cons p fs ih =>
      obtain ⟨a, v⟩ := p
      by_cases h : a = k <;> simp [canonFields, lookupKey, h, ih]

theorem lookupKey_eq_some_iff_mem {fs : List (String × Json)} {k : String} {v : Json}
    (hn : (fs.map Prod.fst).Nodup) : lookupKey fs k = some v ↔ (k, v) ∈ fs := by
  induction fs with
  | nil => simp [lookupKey]
  | cons p fs ih =>
      obtain ⟨a, w⟩ := p
      simp only [List.map_cons, List.nodup_cons] at hn
      by_cases h : a = k
      · subst h
        have hl : lookupKey ((a, w) :: fs) a = some w := by
          simp [lookupKey]
        rw [hl]
        constructor
        · intro h2
          have h3 : w = v := Option.some_inj.mp h2
          subst h3
          exact List.mem_cons_self _ _
        · intro h2
          rcases List.mem_cons.mp h2 with h3 | h3
          · have h4 : v = w := congrArg Prod.snd h3
            rw [h4]
          · exact absurd (List.mem_map_of_mem Prod.fst h3) hn.1
      · simp only [lookupKey, h, if_false, List.mem_cons, ih hn.2]
        constructor
        · intro h2
          exact Or.inr h2
        · rintro (h2 | h2)
          · cases h2
            exact absurd rfl h
          · exact h2

theorem lookupKey_eq_of_perm {l1 l2 : List (String × Json)} (hp : l1.Perm l2)
    (hn : (l1.map Prod.fst).Nodup) (k : String) :
    lookupKey l1 k = lookupKey l2 k := by
  have hn2 : (l2.map Prod.fst).Nodup := (hp.map Prod.fst).nodup_iff.mp hn
  cases h : lookupKey l1 k with
  | some v =>
      have := (lookupKey_eq_some_iff_mem hn).mp h
      exact ((lookupKey_eq_some_iff_mem hn2).mpr (hp.mem_iff.mp this)).symm ▸ rfl
  | none =>
      have hk : k ∉ l1.map Prod.fst := by
        intro hmem
        obtain ⟨⟨a, v⟩, hin, ha⟩ := List.mem_map.mp hmem
        cases ha
        rw [(lookupKey_eq_some_iff_mem hn).mpr hin] at h
        cases h
      have hk2 : k ∉ l2.map Prod.fst := fun h2 => hk ((hp.map Prod.fst).mem_iff.mpr h2)
      rw [lookupKey_none_of_not_mem_keys hk2]

theorem sortK_ext {A B : List (String × Json)}
    (hnA : (A.map Prod.fst).Nodup) (hnB : (B.map Prod.fst).Nodup)
    (h : ∀ k, lookupKey A k = lookupKey B k) : sortK A = sortK B := by
  have hperm : A.Perm B := by
    rw [List.perm_ext_iff_of_nodup (hnA.of_map _) (hnB.of_map _)]
    intro p
    obtain ⟨k, v⟩ := p
    rw [← lookupKey_eq_some_iff_mem hnA, ← lookupKey_eq_some_iff_mem hnB, h k]
  have hsp : (sortK A).Perm (sortK B) :=
    ((sortK_perm A).symm.trans hperm).trans (sortK_perm B)
  exact eq_of_perm_sortedK hsp (sortK_sorted A) (sortK_sorted B)
    (((sortK_perm A).map Prod.fst).nodup_iff.mp hnA)

theorem canon_obj_congr {fs gs : List (String × Json)}
    (hnf : (fs.map Prod.fst).Nodup) (hng : (gs.map Prod.fst).Nodup)
    (h : ∀ k, (lookupKey fs k).map canon = (lookupKey gs k).map canon) :
    canon (.obj fs) = canon (.obj gs) := by
  simp only [canon]
  congr 1
  apply sortK_ext
  · rw [keys_canonFields]
    exact hnf
  · rw [keys_canonFields]
    exact hng
  · intro k
    rw [lookupKey_canonFields, lookupKey_canonFields]
    exact h k

theorem canon_obj_lookup {fs gs : List (String × Json)}
    (hnf : (fs.map Prod.fst).Nodup) (hng : (gs.map Prod.fst).Nodup)
    (h : canon (.obj fs) = canon (.obj gs)) (k : String) :
    (lookupKey fs k).map canon = (lookupKey gs k).map canon := by
  simp only [canon, Json.obj.injEq] at h
  have h1 : lookupKey (canonFields fs) k = lookupKey (canonFields gs) k := by
    have e1 := lookupKey_eq_of_perm (sortK_perm (canonFields fs))
      (by rw [keys_canonFields]; exact hnf) k
    have e2 := lookupKey_eq_of_perm (sortK_perm (canonFields gs))
      (by rw [keys_canonFields]; exact hng) k
    rw [e1, e2, h]
  rw [lookupKey_canonFields, lookupKey_canonFields] at h1
  exact h1

theorem canon_obj_hasKey {fs gs : List (String × Json)}
    (hnf : (fs.map Prod.fst).Nodup) (hng : (gs.map Prod.fst).Nodup)
    (h : canon (.obj fs) = canon (.obj gs)) (k : String) :
    hasKey fs k = hasKey gs k := by
  have := canon_obj_lookup hnf hng h k
  simp only [hasKey]
  cases h1 : lookupKey fs k <;> cases h2 : lookupKey gs k <;>
    simp [h1, h2] at this ⊢

theorem kindOf_canon (d : Json) : kindOf (canon d) = kindOf d := by
  cases d <;> simp [canon, kindOf]

theorem canonList_length (xs : List Json) : (canonList xs).length = xs.length := by
  induction xs with
  | nil => simp [canonList]
  | cons x xs ih => simp [canonList, ih]

theorem canonList_get (xs : List Json) (i : Nat) :
    (canonList xs)[i]? = Option.map canon xs[i]? := by
  induction xs generalizing i with
  | nil => simp [canonList]
  | cons x xs ih =>
      cases i with
      | zero => simp [canonList]
      | succ j => simpa [canonList] using ih j

theorem canonList_append (xs ys : List Json) :
    canonList (xs ++ ys) = canonList xs ++ canonList ys := by
  induction xs with
  | nil => simp [canonList]
  | cons x xs ih => simp [canonList, ih]

theorem canonList_replicate_null (n : Nat) :
    canonList (List.replicate n .null) = List.replicate n .null := by
  induction n with
  | zero => simp [canonList]
  | succ m ih => simp [List.replicate_succ, canonList, ih, canon]

theorem canonList_ext {xs ys : List Json} (hl : xs.length = ys.length)
    (h : ∀ i : Nat, Option.map canon xs[i]? = Option.map canon ys[i]?) :
    canonList xs = canonList ys := by
  induction xs generalizing ys with
  | nil =>
      cases ys with
      | nil => rfl
      | cons y ys => simp at hl
  | cons x xs ih =>
      cases ys with
      | nil => simp at hl
      | cons y ys =>
          simp only [List.length_cons, Nat.add_right_cancel_iff] at hl
          have h0 := h 0
          simp only [List.getElem?_cons_zero, Option.map_some] at h0
          have ht : ∀ i : Nat, Option.map canon xs[i]? = Option.map canon ys[i]? := by
            intro i
            have := h (i + 1)
            simpa using this
          simp only [canonList]
          rw [Option.some_inj.mp h0, ih hl ht]

/-! ### Well-formedness lemmas -/

theorem getAt_nil (d : Json) : getAt d [] = some d := by
  cases d <;> rfl

theorem modAt_nil (d : Json) (f : Json → Json) : modAt d [] f = f d := by
  cases d <;> rfl

theorem wfJ_obj_iff {fs : List (String × Json)} :
    wfJ (.obj fs) = true ↔ (fs.map Prod.fst).Nodup ∧ wfFields fs = true := by
  simp [wfJ]

theorem wfJ_arr_iff {xs : List Json} : wfJ (.arr xs) = true ↔ wfList xs = true := by
  simp [wfJ]

theorem wfFields_lookup {fs : List (String × Json)} {k : String} {v : Json}
    (h : wfFields fs = true) (hv : lookupKey fs k = some v) : wfJ v = true := by
  induction fs with
  | nil => cases hv
  | cons p fs ih =>
      obtain ⟨a, w⟩ := p
      simp only [wfFields, Bool.and_eq_true] at h
      by_cases h2 : a = k
      · simp only [lookupKey, h2, if_pos rfl] at hv
        cases hv
        exact h.1
      · simp only [lookupKey, h2, if_false] at hv
        exact ih h.2 hv

theorem wfList_get {xs : List Json} {i : Nat} {v : Json}
    (h : wfList xs = true) (hv : xs[i]? = some v) : wfJ v = true := by
  induction xs generalizing i with
  | nil => cases hv
  | cons x xs ih =>
      simp only [wfList, Bool.and_eq_true] at h
      cases i with
      | zero =>
          simp only [List.getElem?_cons_zero] at hv
          cases hv
          exact h.1
      | succ j =>
          simp only [List.getElem?_cons_succ] at hv
          exact ih h.2 hv

theorem getAt_wf {pos : List Seg} : ∀ {d v : Json}, wfJ d = true →
    getAt d pos = some v → wfJ v = true := by
  induction pos with
  | nil =>
      intro d v hd h
      rw [getAt_nil] at h
      cases h
      exact hd
  | cons s p ih =>
      intro d v hd h
      cases s with
      | key k =>
          cases d with
          | obj fs =>
              simp only [getAt] at h
              cases hl : lookupKey fs k with
              | none => rw [hl] at h; cases h
              | some w =>
                  rw [hl] at h
                  exact ih (wfFields_lookup (wfJ_obj_iff.mp hd).2 hl) h
          | null => cases h
          | bool b => cases h
          | num n => cases h
          | str s2 => cases h
          | arr xs => cases h
      | idx i =>
          cases d with
          | arr xs =>
              simp only [getAt] at h
              cases hl : xs[i]? with
              | none => rw [hl] at h; cases h
              | some w =>
                  rw [hl] at h
                  exact ih (wfList_get (wfJ_arr_iff.mp hd) hl) h
          | null => cases h
          | bool b => cases h
          | num n => cases h
          | str s2 => cases h
          | obj fs => cases h

theorem wfFields_modKey {fs : List (String × Json)} {k : String} {F : Json → Json}
    (h : wfFields fs = true)
    (hf : ∀ v, lookupKey fs k = some v → wfJ (F v) = true) :
    wfFields (modKey fs k F) = true := by
  induction fs with
  | nil => simp [modKey, wfFields]
  | cons p fs ih =>
      obtain ⟨a, w⟩ := p
      simp only [wfFields, Bool.and_eq_true] at h
      by_cases h2 : a = k
      · subst h2
        simp only [modKey, if_pos rfl, wfFields, Bool.and_eq_true]
        refine ⟨hf w ?_, h.2⟩
        simp [lookupKey]
      · simp only [modKey, h2, if_false, wfFields, Bool.and_eq_true]
        refine ⟨h.1, ih h.2 ?_⟩
        intro v hv
        apply hf
        simp only [lookupKey, h2, if_false]
        exact hv

theorem wfList_modNth {xs : List Json} {i : Nat} {F : Json → Json}
    (h : wfList xs = true)
    (hf : ∀ v, xs[i]? = some v → wfJ (F v) = true) :
    wfList (modNth xs i F) = true := by
  induction xs generalizing i with
  | nil => simp [modNth, wfList]
  | cons x xs ih =>
      simp only [wfList, Bool.and_eq_true] at h
      cases i with
      | zero =>
          simp only [modNth, wfList, Bool.and_eq_true]
          exact ⟨hf x (by simp), h.2⟩
      | succ j =>
          simp only [modNth, wfList, Bool.and_eq_true]
          refine ⟨h.1, ih h.2 ?_⟩
          intro v hv
          apply hf
          simpa using hv

theorem modAt_wf {pos : List Seg} : ∀ {d : Json} {f : Json → Json}, wfJ d = true →
    (∀ v, getAt d pos = some v → wfJ v = true → wfJ (f v) = true) →
    wfJ (modAt d pos f) = true := by
  induction pos with
  | nil =>
      intro d f hd hf
      rw [modAt_nil]
      exact hf d (getAt_nil d) hd
  | cons s p ih =>
      intro d f hd hf
      cases s with
      | key k =>
          cases d with
          | obj fs =>
              have hparts := wfJ_obj_iff.mp hd
              simp only [modAt]
              rw [wfJ_obj_iff]
              constructor
              · rw [keys_modKey]
                exact hparts.1
              · apply wfFields_modKey hparts.2
                intro v hv
                apply ih (wfFields_lookup hparts.2 hv)
                intro w hw hwf
                apply hf
                · simp only [getAt, hv]
                  exact hw
                · exact hwf
          | null => exact hd
          | bool b => exact hd
          | num n => exact hd
          | str s2 => exact hd
          | arr xs => exact hd
      | idx i =>
          cases d with
          | arr xs =>
              have hparts := wfJ_arr_iff.mp hd
              simp only [modAt]
              rw [wfJ_arr_iff]
              apply wfList_modNth hparts
              intro v hv
              apply ih (wfList_get hparts hv)
              intro w hw hwf
              apply hf
              · simp only [getAt, hv]
                exact hw
              · exact hwf
          | null => exact hd
          | bool b => exact hd
          | num n => exact hd
          | str s2 => exact hd
          | obj fs => exact hd

/-! ### Position lemmas -/

theorem modKey_id (fs : List (String × Json)) (k : String) :
    modKey fs k (fun v => v) = fs := by
  induction fs with
  | nil => rfl
  | cons p fs ih =>
      obtain ⟨a, w⟩ := p
      by_cases h : a = k <;> simp [modKey, h, ih]

theorem modNth_id (xs : List Json) (i : Nat) :
    modNth xs i (fun v => v) = xs := by
  induction xs generalizing i with
  | nil => rfl
  | cons x xs ih =>
      cases i with
      | zero => simp [modNth]
      | succ j => simp [modNth, ih]

theorem modKey_comp (fs : List (String × Json)) (k : String) (F G : Json → Json) :
    modKey (modKey fs k F) k G = modKey fs k (fun v => G (F v)) := by
  induction fs with
  | nil => rfl
  | cons p fs ih =>
      obtain ⟨a, w⟩ := p
      by_cases h : a = k <;> simp [modKey, h, ih]

theorem modNth_comp (xs : List Json) (i : Nat) (F G : Json → Json) :
    modNth (modNth xs i F) i G = modNth xs i (fun v => G (F v)) := by
  induction xs generalizing i with
  | nil => rfl
  | cons x xs ih =>
      cases i with
      | zero => simp [modNth]
      | succ j => simp [modNth, ih]

theorem modKey_self {fs : List (String × Json)} {k : String} {v : Json}
    {F : Json → Json} (h : lookupKey fs k = some v) (hv : F v = v) :
    modKey fs k F = fs := by
  induction fs with
  | nil => cases h
  | cons p fs ih =>
      obtain ⟨a, w⟩ := p
      by_cases h2 : a = k
      · subst h2
        simp only [lookupKey, if_pos rfl] at h
        cases h
        simp [modKey, hv]
      · simp only [lookupKey, h2, if_false] at h
        simp [modKey, h2, ih h]

theorem modNth_self {xs : List Json} {i : Nat} {v : Json}
    {F : Json → Json} (h : xs[i]? = some v) (hv : F v = v) :
    modNth xs i F = xs := by
  induction xs generalizing i with
  | nil => cases h
  | cons x xs ih =>
      cases i with
      | zero =>
          simp only [List.getElem?_cons_zero] at h
          cases h
          simp [modNth, hv]
      | succ j =>
          simp only [List.getElem?_cons_succ] at h
          simp [modNth, ih h]

theorem modNth_get_self (xs : List Json) (i : Nat) (f : Json → Json) :
    (modNth xs i f)[i]? = Option.map f xs[i]? := by
  induction xs generalizing i with
  | nil => simp [modNth]
  | cons x xs ih =>
      cases i with
      | zero => simp [modNth]
      | succ j => simpa [modNth] using ih j

theorem modAt_comp (pos : List Seg) : ∀ (d : Json) (f g : Json → Json),
    modAt (modAt d pos f) pos g = modAt d pos (fun v => g (f v)) := by
  induction pos with
  | nil =>
      intro d f g
      simp [modAt_nil]
  | cons s p ih =>
      intro d f g
      cases s with
      | key k =>
          cases d with
          | obj fs =>
              simp only [modAt, modKey_comp]
              congr 1
              apply congrArg
              funext v
              exact ih v f g
          | null => rfl
          | bool b => rfl
          | num n => rfl
          | str s2 => rfl
          | arr xs => rfl
      | idx i =>
          cases d with
          | arr xs =>
              simp only [modAt, modNth_comp]
              congr 1
              apply congrArg
              funext v
              exact ih v f g
          | null => rfl
          | bool b => rfl
          | num n => rfl
          | str s2 => rfl
          | obj fs => rfl

theorem modAt_invalid {pos : List Seg} : ∀ {d : Json} {f : Json → Json},
    getAt d pos = none → modAt d pos f = d := by
  induction pos with
  | nil =>
      intro d f h
      rw [getAt_nil] at h
      cases h
  | cons s p ih =>
      intro d f h
      cases s with
      | key k =>
          cases d with
          | obj fs =>
              simp only [getAt] at h
              simp only [modAt]
              cases hl : lookupKey fs k with
              | none =>
                  congr 1
                  clear h
                  induction fs with
                  | nil => rfl
                  | cons p2 fs2 ih2 =>
                      obtain ⟨a, w⟩ := p2
                      by_cases h2 : a = k
                      · subst h2
                        simp [lookupKey] at hl
                      · simp only [lookupKey, h2, if_false] at hl
                        simp [modKey, h2, ih2 hl]
              | some v =>
                  rw [hl] at h
                  congr 1
                  exact modKey_self hl (ih h)
          | null => rfl
          | bool b => rfl
          | num n => rfl
          | str s2 => rfl
          | arr xs => rfl
      | idx i =>
          cases d with
          | arr xs =>
              simp only [getAt] at h
              simp only [modAt]
              cases hl : xs[i]? with
              | none =>
                  congr 1
                  have hlen : xs.length ≤ i := by
                    by_contra hc
                    push_neg at hc
                    rw [List.getElem?_eq_getElem hc] at hl
                    cases hl
                  clear h hl
                  induction xs generalizing i with
                  | nil => rfl
                  | cons x xs2 ih2 =>
                      cases i with
                      | zero => simp at hlen
                      | succ j =>
                          simp only [List.length_cons, Nat.succ_le_succ_iff] at hlen
                          simp [modNth, ih2 j hlen]
              | some v =>
                  rw [hl] at h
                  congr 1
                  exact modNth_self hl (ih h)
          | null => rfl
          | bool b => rfl
          | num n => rfl
          | str s2 => rfl
          | obj fs => rfl

theorem getAt_modAt (pos : List Seg) : ∀ (d : Json) (f : Json → Json),
    getAt (modAt d pos f) pos = Option.map f (getAt d pos) := by
  induction pos with
  | nil =>
      intro d f
      simp [modAt_nil, getAt_nil]
  | cons s p ih =>
      intro d f
      cases s with
      | key k =>
          cases d with
          | obj fs =>
              simp only [modAt, getAt, lookupKey_modKey, if_pos rfl]
              cases hl : lookupKey fs k with
              | none => simp
              | some v => simpa using ih v f
          | null => rfl
          | bool b => rfl
          | num n => rfl
          | str s2 => rfl
          | arr xs => rfl
      | idx i =>
          cases d with
          | arr xs =>
              simp only [modAt, getAt, modNth_get_self]
              cases hl : xs[i]? with
              | none => simp
              | some v => simpa using ih v f
          | null => rfl
          | bool b => rfl
          | num n => rfl
          | str s2 => rfl
          | obj fs => rfl

theorem getAt_append (p q : List Seg) : ∀ (d : Json),
    getAt d (p ++ q) = (getAt d p).bind (fun v => getAt v q) := by
  induction p with
  | nil =>
      intro d
      simp [getAt_nil]
  | cons s p ih =>
      intro d
      cases s with
      | key k =>
          cases d with
          | obj fs =>
              simp only [List.cons_append, getAt]
              cases hl : lookupKey fs k with
              | none => simp
              | some v => simp [ih v]
          | null => rfl
          | bool b => rfl
          | num n => rfl
          | str s2 => rfl
          | arr xs => rfl
      | idx i =>
          cases d with
          | arr xs =>
              simp only [List.cons_append, getAt]
              cases hl : xs[i]? with
              | none => simp
              | some v => simp [ih v]
          | null => rfl
          | bool b => rfl
          | num n => rfl
          | str s2 => rfl
          | obj fs => rfl

/-! ### Congruence of reads and writes up to object order -/

theorem canon_arr_rel {xs ys : List Json} (h : canon (.arr xs) = canon (.arr ys))
    (i : Nat) : Option.map canon xs[i]? = Option.map canon ys[i]? := by
  simp only [canon, Json.arr.injEq] at h
  rw [← canonList_get, ← canonList_get, h]

theorem canon_arr_length {xs ys : List Json} (h : canon (.arr xs) = canon (.arr ys)) :
    xs.length = ys.length := by
  simp only [canon, Json.arr.injEq] at h
  rw [← canonList_length xs, ← canonList_length ys, h]

theorem getAt_canon_rel (pos : List Seg) : ∀ {d e : Json}, wfJ d = true → wfJ e = true →
    canon d = canon e →
    Option.map canon (getAt d pos) = Option.map canon (getAt e pos) := by
  induction pos with
  | nil =>
      intro d e _ _ h
      simp [getAt_nil, h]
  | cons s p ih =>
      intro d e hd he h
      have hk := congrArg kindOf h
      rw [kindOf_canon, kindOf_canon] at hk
      cases s with
      | key k =>
          cases d with
          | obj fs =>
              cases e with
              | obj gs =>
                  have hnf := (wfJ_obj_iff.mp hd).1
                  have hng := (wfJ_obj_iff.mp he).1
                  have hrel := canon_obj_lookup hnf hng h k
                  simp only [getAt]
                  cases h1 : lookupKey fs k with
                  | none =>
                      cases h2 : lookupKey gs k with
                      | none => simp
                      | some w =>
                          rw [h1, h2] at hrel
                          simp at hrel
                  | some v =>
                      cases h2 : lookupKey gs k with
                      | none =>
                          rw [h1, h2] at hrel
                          simp at hrel
                      | some w =>
                          rw [h1, h2] at hrel
                          simp only [Option.map_some', Option.some_inj] at hrel
                          exact ih (wfFields_lookup (wfJ_obj_iff.mp hd).2 h1)
                            (wfFields_lookup (wfJ_obj_iff.mp he).2 h2) hrel
              | null => simp [kindOf] at hk
              | bool b => simp [kindOf] at hk
              | num n => simp [kindOf] at hk
              | str s2 => simp [kindOf] at hk
              | arr ys => simp [kindOf] at hk
          | null => cases e <;> simp [kindOf] at hk <;> simp [getAt]
          | bool b => cases e <;> simp [kindOf] at hk <;> simp [getAt]
          | num n => cases e <;> simp [kindOf] at hk <;> simp [getAt]
          | str s2 => cases e <;> simp [kindOf] at hk <;> simp [getAt]
          | arr xs => cases e <;> simp [kindOf] at hk <;> simp [getAt]
      | idx i =>
          cases d with
          | arr xs =>
              cases e with
              | arr ys =>
                  have hrel := canon_arr_rel h i
                  simp only [getAt]
                  cases h1 : xs[i]? with
                  | none =>
                      cases h2 : ys[i]? with
                      | none => simp
                      | some w =>
                          rw [h1, h2] at hrel
                          simp at hrel
                  | some v =>
                      cases h2 : ys[i]? with
                      | none =>
                          rw [h1, h2] at hrel
                          simp at hrel
                      | some w =>
                          rw [h1, h2] at hrel
                          simp only [Option.map_some', Option.some_inj] at hrel
                          exact ih (wfList_get (wfJ_arr_iff.mp hd) h1)
                            (wfList_get (wfJ_arr_iff.mp he) h2) hrel
              | null => simp [kindOf] at hk
              | bool b => simp [kindOf] at hk
              | num n => simp [kindOf] at hk
              | str s2 => simp [kindOf] at hk
              | obj gs => simp [kindOf] at hk
          | null => cases e <;> simp [kindOf] at hk <;> simp [getAt]
          | bool b => cases e <;> simp [kindOf] at hk <;> simp [getAt]
          | num n => cases e <;> simp [kindOf] at hk <;> simp [getAt]
          | str s2 => cases e <;> simp [kindOf] at hk <;> simp [getAt]
          | obj fs => cases e <;> simp [kindOf] at hk <;> simp [getAt]

theorem resolveStrict_nil (d : Json) : resolveStrict d [] = some [] := by
  cases d <;> rfl

theorem resolveStrict_congr (path : List String) : ∀ {d e : Json},
    wfJ d = true → wfJ e = true → canon d = canon e →
    resolveStrict d path = resolveStrict e path := by
  induction path with
  | nil =>
      intro d e _ _ _
      rw [resolveStrict_nil, resolveStrict_nil]
  | cons s rest ih =>
      intro d e hd he h
      have hk := congrArg kindOf h
      rw [kindOf_canon, kindOf_canon] at hk
      cases d with
      | obj fs =>
          cases e with
          | obj gs =>
              have hnf := (wfJ_obj_iff.mp hd).1
              have hng := (wfJ_obj_iff.mp he).1
              have hrel := canon_obj_lookup hnf hng h s
              cases h1 : lookupKey fs s with
              | none =>
                  cases h2 : lookupKey gs s with
                  | none => simp [resolveStrict, h1, h2]
                  | some w =>
                      rw [h1, h2] at hrel
                      simp at hrel
              | some v =>
                  cases h2 : lookupKey gs s with
                  | none =>
                      rw [h1, h2] at hrel
                      simp at hrel
                  | some w =>
                      rw [h1, h2] at hrel
                      simp only [Option.map_some', Option.some_inj] at hrel
                      simp only [resolveStrict, h1, h2]
                      rw [ih (wfFields_lookup (wfJ_obj_iff.mp hd).2 h1)
                        (wfFields_lookup (wfJ_obj_iff.mp he).2 h2) hrel]
          | null => simp [kindOf] at hk
          | bool b => simp [kindOf] at hk
          | num n => simp [kindOf] at hk
          | str s2 => simp [kindOf] at hk
          | arr ys => simp [kindOf] at hk
      | arr xs =>
          cases e with
          | arr ys =>
              cases hs : stoulModel s with
              | none => simp [resolveStrict, hs]
              | some i =>
                  have hrel := canon_arr_rel h i
                  cases h1 : xs[i]? with
                  | none =>
                      cases h2 : ys[i]? with
                      | none => simp [resolveStrict, hs, h1, h2]
                      | some w =>
                          rw [h1, h2] at hrel
                          simp at hrel
                  | some v =>
                      cases h2 : ys[i]? with
                      | none =>
                          rw [h1, h2] at hrel
                          simp at hrel
                      | some w =>
                          rw [h1, h2] at hrel
                          simp only [Option.map_some', Option.some_inj] at hrel
                          simp only [resolveStrict, hs, h1, h2]
                          rw [ih (wfList_get (wfJ_arr_iff.mp hd) h1)
                            (wfList_get (wfJ_arr_iff.mp he) h2) hrel]
          | null => simp [kindOf] at hk
          | bool b => simp [kindOf] at hk
          | num n => simp [kindOf] at hk
          | str s2 => simp [kindOf] at hk
          | obj gs => simp [kindOf] at hk
      | null => cases e <;> simp [kindOf] at hk <;> rfl
      | bool b => cases e <;> simp [kindOf] at hk <;> rfl
      | num n => cases e <;> simp [kindOf] at hk <;> rfl
      | str s2 => cases e <;> simp [kindOf] at hk <;> rfl

theorem modNth_length (xs : List Json) (i : Nat) (f : Json → Json) :
    (modNth xs i f).length = xs.length := by
  induction xs generalizing i with
  | nil => rfl
  | cons x xs ih =>
      cases i with
      | zero => simp [modNth]
      | succ j => simp [modNth, ih]

theorem modNth_get_ne (xs : List Json) {i j : Nat} (f : Json → Json) (h : j ≠ i) :
    (modNth xs i f)[j]? = xs[j]? := by
  induction xs generalizing i j with
  | nil => simp [modNth]
  | cons x xs ih =>
      cases i with
      | zero =>
          cases j with
          | zero => exact absurd rfl h
          | succ j2 => simp [modNth]
      | succ i2 =>
          cases j with
          | zero => simp [modNth]
          | succ j2 =>
              simp only [modNth, List.getElem?_cons_succ]
              exact ih (fun h2 => h (by rw [h2]))

theorem modAt_congr (pos : List Seg) : ∀ {d e : Json} {f g : Json → Json},
    wfJ d = true → wfJ e = true → canon d = canon e →
    (∀ v w, getAt d pos = some v → getAt e pos = some w → canon (f v) = canon (g w)) →
    canon (modAt d pos f) = canon (modAt e pos g) := by
  induction pos with
  | nil =>
      intro d e f g _ _ h hf
      rw [modAt_nil, modAt_nil]
      exact hf d e (getAt_nil d) (getAt_nil e)
  | cons s p ih =>
      intro d e f g hd he h hf
      have hk := congrArg kindOf h
      rw [kindOf_canon, kindOf_canon] at hk
      cases s with
      | key k =>
          cases d with
          | obj fs =>
              cases e with
              | obj gs =>
                  have hdp := wfJ_obj_iff.mp hd
                  have hep := wfJ_obj_iff.mp he
                  have hrel := canon_obj_lookup hdp.1 hep.1 h
                  simp only [modAt]
                  apply canon_obj_congr
                  · rw [keys_modKey]
                    exact hdp.1
                  · rw [keys_modKey]
                    exact hep.1
                  · intro k'
                    rw [lookupKey_modKey, lookupKey_modKey]
                    by_cases hkk : k' = k
                    · simp only [hkk, if_pos rfl]
                      cases h1 : lookupKey fs k with
                      | none =>
                          cases h2 : lookupKey gs k with
                          | none => simp
                          | some w =>
                              have := hrel k
                              rw [h1, h2] at this
                              simp at this
                      | some v =>
                          cases h2 : lookupKey gs k with
                          | none =>
                              have := hrel k
                              rw [h1, h2] at this
                              simp at this
                          | some w =>
                              have hvw := hrel k
                              rw [h1, h2] at hvw
                              simp only [Option.map_some', Option.some_inj] at hvw
                              have hgoal : canon (modAt v p f) = canon (modAt w p g) := by
                                apply ih (wfFields_lookup hdp.2 h1) (wfFields_lookup hep.2 h2) hvw
                                intro v' w' hv' hw'
                                apply hf
                                · simp only [getAt, h1]
                                  exact hv'
                                · simp only [getAt, h2]
                                  exact hw'
                              simp [hgoal]
                    · simp only [hkk, if_false]
                      exact hrel k'
              | null => simp [kindOf] at hk
              | bool b => simp [kindOf] at hk
              | num n => simp [kindOf] at hk
              | str s2 => simp [kindOf] at hk
              | arr ys => simp [kindOf] at hk
          | null => cases e <;> simp [kindOf] at hk <;> exact h
          | bool b => cases e <;> simp [kindOf] at hk <;> exact h
          | num n => cases e <;> simp [kindOf] at hk <;> exact h
          | str s2 => cases e <;> simp [kindOf] at hk <;> exact h
          | arr xs => cases e <;> simp [kindOf] at hk <;> exact h
      | idx i =>
          cases d with
          | arr xs =>
              cases e with
              | arr ys =>
                  have hdp := wfJ_arr_iff.mp hd
                  have hep := wfJ_arr_iff.mp he
                  simp only [modAt, canon, Json.arr.injEq]
                  apply canonList_ext
                  · rw [modNth_length, modNth_length]
                    exact canon_arr_length h
                  · intro j
                    by_cases hji : j = i
                    · subst hji
                      rw [modNth_get_self, modNth_get_self]
                      cases h1 : xs[j]? with
                      | none =>
                          cases h2 : ys[j]? with
                          | none => simp
                          | some w =>
                              have := canon_arr_rel h j
                              rw [h1, h2] at this
                              simp at this
                      | some v =>
                          cases h2 : ys[j]? with
                          | none =>
                              have := canon_arr_rel h j
                              rw [h1, h2] at this
                              simp at this
                          | some w =>
                              have hvw := canon_arr_rel h j
                              rw [h1, h2] at hvw
                              simp only [Option.map_some', Option.some_inj] at hvw
                              have hgoal : canon (modAt v p f) = canon (modAt w p g) := by
                                apply ih (wfList_get hdp h1) (wfList_get hep h2) hvw
                                intro v' w' hv' hw'
                                apply hf
                                · simp only [getAt, h1]
                                  exact hv'
                                · simp only [getAt, h2]
                                  exact hw'
                              simp [hgoal]
                    · rw [modNth_get_ne _ _ hji, modNth_get_ne _ _ hji]
                      exact canon_arr_rel h j
              | null => simp [kindOf] at hk
              | bool b => simp [kindOf] at hk
              | num n => simp [kindOf] at hk
              | str s2 => simp [kindOf] at hk
              | obj gs => simp [kindOf] at hk
          | null => cases e <;> simp [kindOf] at hk <;> exact h
          | bool b => cases e <;> simp [kindOf] at hk <;> exact h
          | num n => cases e <;> simp [kindOf] at hk <;> exact h
          | str s2 => cases e <;> simp [kindOf] at hk <;> exact h
          | obj fs => cases e <;> simp [kindOf] at hk <;> exact h

/-! ### Strict resolution: bridge to `getNode` and stability -/

theorem getNodeGo_nil (doc : Json) (pos : List Seg) : getNodeGo doc pos [] = (doc, pos) := rfl

theorem getNodeGo_of_resolveStrict (segs : List String) :
    ∀ (doc cur : Json) (pos q : List Seg), getAt doc pos = some cur →
    resolveStrict cur segs = some q →
    getNodeGo doc pos segs = (doc, pos ++ q) := by
  induction segs with
  | nil =>
      intro doc cur pos q hget hres
      rw [resolveStrict_nil] at hres
      cases hres
      simp [getNodeGo_nil]
  | cons s rest ih =>
      intro doc cur pos q hget hres
      cases cur with
      | obj fs =>
          cases hl : lookupKey fs s with
          | none => simp [resolveStrict, hl] at hres
          | some v =>
              simp only [resolveStrict, hl, Option.map_eq_some'] at hres
              obtain ⟨q2, hq2, hq⟩ := hres
              subst hq
              have hhas : hasKey fs s = true := by
                simp [hasKey, hl]
              have hget2 : getAt doc (pos ++ [.key s]) = some v := by
                rw [getAt_append]
                simp [hget, getAt, hl]
              have := ih doc v (pos ++ [.key s]) q2 hget2 hq2
              simp only [getNodeGo, nodeAt, hget, Option.getD_some, hhas, if_pos rfl, this]
              simp
      | arr xs =>
          cases hs : stoulModel s with
          | none => simp [resolveStrict, hs] at hres
          | some i =>
              cases hx : xs[i]? with
              | none => simp [resolveStrict, hs, hx] at hres
              | some v =>
                  simp only [resolveStrict, hs, hx, Option.map_eq_some'] at hres
                  obtain ⟨q2, hq2, hq⟩ := hres
                  subst hq
                  have hlt : i < xs.length := by
                    by_contra hc
                    push_neg at hc
                    rw [List.getElem?_eq_none hc] at hx
                    cases hx
                  have hget2 : getAt doc (pos ++ [.idx i]) = some v := by
                    rw [getAt_append]
                    simp [hget, getAt, hx]
                  have := ih doc v (pos ++ [.idx i]) q2 hget2 hq2
                  simp only [getNodeGo, nodeAt, hget, Option.getD_some, hs, hlt, if_pos rfl, this]
                  simp
      | null => simp [resolveStrict] at hres
      | bool b => simp [resolveStrict] at hres
      | num n => simp [resolveStrict] at hres
      | str s2 => simp [resolveStrict] at hres

theorem getNode_of_resolveStrict {doc : Json} {path : List String} {pos : List Seg}
    (h : resolveStrict doc path = some pos) : getNode doc path = (doc, pos) := by
  have := getNodeGo_of_resolveStrict path doc doc [] pos (getAt_nil doc) h
  simpa [getNode] using this

theorem resolveStrict_modAt (path : List String) : ∀ {d : Json} {pos : List Seg}
    (f : Json → Json), resolveStrict d path = some pos →
    resolveStrict (modAt d pos f) path = some pos := by
  induction path with
  | nil =>
      intro d pos f h
      rw [resolveStrict_nil] at h
      cases h
      rw [resolveStrict_nil]
  | cons s rest ih =>
      intro d pos f h
      cases d with
      | obj fs =>
          cases hl : lookupKey fs s with
          | none => simp [resolveStrict, hl] at h
          | some v =>
              simp only [resolveStrict, hl, Option.map_eq_some'] at h
              obtain ⟨q, hq, hpos⟩ := h
              subst hpos
              simp [modAt, resolveStrict, lookupKey_modKey, hl, ih f hq]
      | arr xs =>
          cases hs : stoulModel s with
          | none => simp [resolveStrict, hs] at h
          | some i =>
              cases hx : xs[i]? with
              | none => simp [resolveStrict, hs, hx] at h
              | some v =>
                  simp only [resolveStrict, hs, hx, Option.map_eq_some'] at h
                  obtain ⟨q, hq, hpos⟩ := h
                  subst hpos
                  simp [modAt, resolveStrict, hs, modNth_get_self, hx, ih f hq]
      | null => simp [resolveStrict] at h
      | bool b => simp [resolveStrict] at h
      | num n => simp [resolveStrict] at h
      | str s2 => simp [resolveStrict] at h

/-! ### View-refresh document identities under strict resolution -/

theorem updateTreeEntries_doc {d : Json} {path : List String} {pos : List Seg}
    (h : resolveStrict d path = some pos) : (updateTreeEntries d path).1 = d := by
  simp only [updateTreeEntries, getNode_of_resolveStrict h]
  cases hn : nodeAt d pos <;> simp

theorem selectedNodeDocEffect_obj {d : Json} {path : List String} {pos : List Seg}
    {fs : List (String × Json)} (entries : List TreeEntry) (idx : Int)
    (h : resolveStrict d path = some pos) (hobj : getAt d pos = some (.obj fs)) :
    selectedNodeDocEffect d path entries idx = d := by
  simp only [selectedNodeDocEffect]
  by_cases h1 : idx < 0
  · simp [h1]
  · simp only [h1, if_false]
    cases h2 : entries[idx.toNat]? with
    | none => rfl
    | some e =>
        by_cases h3 : e.key = ".."
        · simp [h3]
        · simp only [h3, if_false, getNode_of_resolveStrict h, nodeAt, hobj,
            Option.getD_some]

/-! ### Claim theorems -/

/-- C6: `HistoryManager::Push` appends the action to the undo stack and
empties the redo stack entirely, so after any sequence of operations — in
particular after an Undo — a newly pushed committed mutation leaves
`CanRedo` false and makes `Redo` (and the editor's `PerformRedo`) perform no
operation and report nothing to redo. -/
theorem c6_push_clears_redo :
    ∀ (h : HistoryManager) (a : EditAction) (doc : Json),
      (h.push a).undoStack = a :: h.undoStack ∧
      (h.push a).redoStack = [] ∧
      (h.push a).canRedo = false ∧
      (h.push a).redoStep doc = (h.push a, doc, none, true) ∧
      performRedoDoc (doc, h.push a) = ((doc, h.push a), true) := by
  intro h a doc
  refine ⟨rfl, rfl, rfl, rfl, ?_⟩
  simp [performRedoDoc, HistoryManager.canRedo, HistoryManager.push]

/-- C7: on the document `{"x": {"name": "apple"}, "list": ["banana","x"]}`,
`OnSearchSubmit` from the root with query "an" yields exactly the value
match "banana" at path `["list","0"]`, and with query "x" a key match at
path `["x"]` followed by the value match "x" at path `["list","1"]`, in
depth-first pre-order document order. -/
theorem c7_search_concrete :
    onSearchSubmit
      (.obj [("x", .obj [("name", .str "apple")]), ("list", .arr [.str "banana", .str "x"])])
      [] "an" true =
      some (.obj [("x", .obj [("name", .str "apple")]), ("list", .arr [.str "banana", .str "x"])],
        [(["list", "0"], "Val: banana (Path: list > 0)")]) ∧
    onSearchSubmit
      (.obj [("x", .obj [("name", .str "apple")]), ("list", .arr [.str "banana", .str "x"])])
      [] "x" true =
      some (.obj [("x", .obj [("name", .str "apple")]), ("list", .arr [.str "banana", .str "x"])],
        [(["x"], "Key: x (Path: x)"), (["list", "1"], "Val: x (Path: list > 1)")]) := by
  constructor
  · simp only [onSearchSubmit, if_neg (by decide : ¬("an" = "")), if_pos rfl]
    simp [searchRecursive, searchFields, searchElems, strContains, occursIn, headMatches,
      getPathString, natToDecimal, decDigitsGo, digitChar]
    decide
  · simp only [onSearchSubmit, if_neg (by decide : ¬("x" = "")), if_pos rfl]
    simp [searchRecursive, searchFields, searchElems, strContains, occursIn, headMatches,
      getPathString, natToDecimal, decDigitsGo, digitChar]
    exact ⟨by decide, by decide⟩

/-- C2 (counterexample): resolving `["a","5"]` on `{"a":[1,2]}` does not
fail back to the document root as the claim states: `GetNode` silently
enlarges the array to six elements and returns the fresh null element at
position `["a", 5]`, mutating the document. -/
theorem c2_root_fallback_counterexample :
    getNode (.obj [("a", .arr [.num 1, .num 2])]) ["a", "5"] =
      (.obj [("a", .arr [.num 1, .num 2, .null, .null, .null, .null])],
        [.key "a", .idx 5]) ∧
    ([Seg.key "a", Seg.idx 5] ≠ ([] : List Seg)) ∧
    Json.obj [("a", .arr [.num 1, .num 2, .null, .null, .null, .null])] ≠
      .obj [("a", .arr [.num 1, .num 2])] := by
  refine ⟨rfl, by simp, by simp⟩

/-- C2 (amended): `resolve(root, []) = root`, and `["a","0"]` on
`{"a":[1,2]}` yields `1`; but a segment that parses to an array index at or
beyond the array's length does not fail: `operator[]` silently enlarges the
array with nulls and resolution continues at the new null element (up to the
`max_size` bound, beyond which the thrown `length_error` is caught and the
root is returned).  The root fallback occurs when the segment does not parse
as a number at all. -/
theorem c2_out_of_range_resolution :
    (∀ d : Json, getNode d [] = (d, [])) ∧
    (getNode (.obj [("a", .arr [.num 1, .num 2])]) ["a", "0"] =
        (.obj [("a", .arr [.num 1, .num 2])], [.key "a", .idx 0]) ∧
      getAt (.obj [("a", .arr [.num 1, .num 2])]) [.key "a", .idx 0] = some (.num 1)) ∧
    (∀ (xs : List Json) (s : String) (i : Nat), stoulModel s = some i →
      xs.length ≤ i → i < arrMax →
      getNode (.arr xs) [s] =
        (.arr (xs ++ List.replicate (i + 1 - xs.length) .null), [.idx i]) ∧
      getAt (.arr (xs ++ List.replicate (i + 1 - xs.length) .null)) [.idx i] =
        some .null) ∧
    (∀ (xs : List Json) (s : String) (i : Nat), stoulModel s = some i →
      xs.length ≤ i → arrMax ≤ i → getNode (.arr xs) [s] = (.arr xs, [])) ∧
    (∀ (xs : List Json) (s : String) (rest : List String), stoulModel s = none →
      getNode (.arr xs) (s :: rest) = (.arr xs, [])) := by
  refine ⟨?_, ⟨rfl, rfl⟩, ?_, ?_, ?_⟩
  · intro d
    rfl
  · intro xs s i hs hlen hmax
    constructor
    · have hnlt : ¬(i < xs.length) := by omega
      simp only [getNode, getNodeGo, nodeAt, getAt_nil, Option.getD_some, hs, hnlt,
        if_false, hmax, if_pos rfl, modAt_nil, extendArr]
      rfl
    · simp only [getAt]
      have hget : (xs ++ List.replicate (i + 1 - xs.length) Json.null)[i]? =
          some Json.null := by
        rw [List.getElem?_append_right hlen]
        rw [List.getElem?_replicate]
        have : i - xs.length < i + 1 - xs.length := by omega
        simp [this]
      rw [hget]
  · intro xs s i hs hlen hmax
    have h1 : ¬(i < xs.length) := by omega
    have h2 : ¬(i < arrMax) := by omega
    simp [getNode, getNodeGo, nodeAt, getAt_nil, hs, h1, h2]
  · intro xs s rest hs
    simp [getNode, getNodeGo, nodeAt, getAt_nil, hs]

/-- Witness for C2 (amended): concrete instances of the quantified parts —
index 3 on the one-element array `[7]` enlarges it to `[7,null,null,null]`
and resolves to the new null; an index at `max_size` (2^59) makes the
enlargement throw and falls back to the root; a non-numeric segment on an
array falls back to the root. -/
theorem c2_out_of_range_witness :
    getNode (.arr [.num 7]) ["3"] =
      (.arr ([.num 7] ++ List.replicate (3 + 1 - 1) .null), [.idx 3]) ∧
    getNode (.arr [.num 7]) ["576460752303423488"] = (.arr [.num 7], []) ∧
    getNode (.arr [.num 7]) ["zz"] = (.arr [.num 7], []) := by
  refine ⟨(c2_out_of_range_resolution.2.2.1 [.num 7] "3" 3 (by decide) (by decide)
    (by decide)).1, ?_, ?_⟩
  · exact c2_out_of_range_resolution.2.2.2.1 [.num 7] "576460752303423488" arrMax
      (by decide) (by decide) (by decide)
  · exact c2_out_of_range_resolution.2.2.2.2 [.num 7] "zz" [] (by decide)

/-- C10: when resolution reaches a non-container node (neither object nor
array) with path segments remaining, `GetNode` silently skips the remaining
segments and returns that node itself, not the document root; for example
resolving `["a","b"]` on `{"a":1}` returns the value `1` (position
`["a"]`). -/
theorem c10_scalar_skip :
    (∀ (doc : Json) (pos : List Seg) (segs : List String) (j : Json),
      getAt doc pos = some j → kindOf j ≠ .object → kindOf j ≠ .array →
      getNodeGo doc pos segs = (doc, pos)) ∧
    (getNode (.obj [("a", .num 1)]) ["a", "b"] = (.obj [("a", .num 1)], [.key "a"]) ∧
      getAt (.obj [("a", .num 1)]) [.key "a"] = some (.num 1)) := by
  constructor
  · intro doc pos segs j hget hno hna
    induction segs with
    | nil => exact getNodeGo_nil doc pos
    | cons s rest ih =>
        cases j with
        | obj fs => exact absurd rfl hno
        | arr xs => exact absurd rfl hna
        | null =>
            simp only [getNodeGo, nodeAt, hget, Option.getD_some]
            exact ih
        | bool b =>
            simp only [getNodeGo, nodeAt, hget, Option.getD_some]
            exact ih
        | num n =>
            simp only [getNodeGo, nodeAt, hget, Option.getD_some]
            exact ih
        | str s2 =>
            simp only [getNodeGo, nodeAt, hget, Option.getD_some]
            exact ih
  · exact ⟨rfl, rfl⟩

/-- Witness for C10: resolving the leftover segments `["x","y"]` against the
scalar `5` leaves the document untouched and stays at the scalar. -/
theorem c10_scalar_skip_witness :
    getNodeGo (.num 5) [] ["x", "y"] = (.num 5, []) :=
  c10_scalar_skip.1 (.num 5) [] ["x", "y"] (.num 5) (getAt_nil _)
    (by decide) (by decide)

/-! ### Lemmas about the listing index search -/

theorem getIndexFromEntriesGo_not_found {l : List TreeEntry} {key : String}
    (h : ∀ e ∈ l, e.key ≠ key) : ∀ n, getIndexFromEntriesGo l key n = -1 := by
  induction l with
  | nil => intro n; rfl
  | cons e es ih =>
      intro n
      have he := h e (List.mem_cons_self e es)
      simp only [getIndexFromEntriesGo, he, if_false]
      exact ih (fun x hx => h x (List.mem_cons_of_mem e hx)) (n + 1)

theorem getIndexFromEntriesGo_found {l : List TreeEntry} {key : String}
    (h : ∃ e ∈ l, e.key = key) : ∀ n, ∃ j : Nat,
      getIndexFromEntriesGo l key n = ((n + j : Nat) : Int) ∧ j < l.length ∧
      ∃ e, l[j]? = some e ∧ e.key = key := by
  induction l with
  | nil => obtain ⟨e, he, _⟩ := h; cases he
  | cons e es ih =>
      intro n
      by_cases hk : e.key = key
      · refine ⟨0, ?_, by simp, e, by simp, hk⟩
        simp [getIndexFromEntriesGo, hk]
      · obtain ⟨x, hx, hxk⟩ := h
        rcases List.mem_cons.mp hx with h2 | h2
        · subst h2
          exact absurd hxk hk
        · obtain ⟨j, hj1, hj2, e2, he2, he2k⟩ := ih ⟨x, h2, hxk⟩ (n + 1)
          refine ⟨j + 1, ?_, by simpa using hj2, e2, by simpa using he2, he2k⟩
          simp only [getIndexFromEntriesGo, hk, if_false]
          rw [hj1]
          congr 1
          omega

theorem getIndexFromEntries_not_found {l : List TreeEntry} {key : String}
    (h : ∀ e ∈ l, e.key ≠ key) : getIndexFromEntries l key = -1 :=
  getIndexFromEntriesGo_not_found h 0

theorem getIndexFromEntries_found {l : List TreeEntry} {key : String}
    (h : ∃ e ∈ l, e.key = key) : ∃ j : Nat,
      getIndexFromEntries l key = (j : Int) ∧ j < l.length ∧
      ∃ e, l[j]? = some e ∧ e.key = key := by
  obtain ⟨j, h1, h2, e, h3, h4⟩ := getIndexFromEntriesGo_found h 0
  exact ⟨j, by simpa using h1, h2, e, h3, h4⟩

/-- C4 (amended): `RestoreView(action)` sets the current path to
`action.path`, regenerates the listing for it, and sets the selected index
to `GetIndexFromEntries(action.focus_key)`: the index of the first entry
whose key equals the focus key — a valid listing index — when such an entry
exists, but `-1` (not 0, and not a valid index) when no entry with that key
exists; only `RefreshTreeAndCloseModal` clamps an out-of-range focus to 0,
`RestoreView` does not. -/
theorem c4_restore_view_selection (doc : Json) (a : EditAction) :
    (restoreView doc a).2.currentPath = a.path ∧
    (restoreView doc a).2.entries = (updateTreeEntries doc a.path).2 ∧
    (restoreView doc a).2.selectedIndex =
      getIndexFromEntries (updateTreeEntries doc a.path).2 a.focusKey ∧
    ((∃ e ∈ (updateTreeEntries doc a.path).2, e.key = a.focusKey) →
      ∃ j : Nat, (restoreView doc a).2.selectedIndex = (j : Int) ∧
        j < (updateTreeEntries doc a.path).2.length ∧
        ∃ e, ((updateTreeEntries doc a.path).2)[j]? = some e ∧ e.key = a.focusKey) ∧
    ((∀ e ∈ (updateTreeEntries doc a.path).2, e.key ≠ a.focusKey) →
      (restoreView doc a).2.selectedIndex = -1) := by
  refine ⟨rfl, rfl, rfl, ?_, ?_⟩
  · intro h
    obtain ⟨j, h1, h2, e, h3, h4⟩ := getIndexFromEntries_found h
    exact ⟨j, h1, h2, e, h3, h4⟩
  · intro h
    exact getIndexFromEntries_not_found h

/-- Counterexample for C4 as stated: undoing the addition of key "k" to an
empty root object replays an action whose focus key "k" no longer names any
listing entry; `RestoreView` then sets the selected index to `-1`, not 0,
so the selected index is neither 0 nor a valid index into the (empty)
listing. -/
theorem c4_restore_view_counterexample :
    (restoreView (.obj [])
        ⟨.removeKey [] "k", .addKey [] "k" .null, [], "k"⟩).2.selectedIndex = -1 ∧
    (restoreView (.obj [])
        ⟨.removeKey [] "k", .addKey [] "k" .null, [], "k"⟩).2.entries = [] ∧
    (-1 : Int) ≠ 0 := by
  refine ⟨rfl, rfl, by decide⟩

/-- Witness for C4 (amended): restoring after the addition of "k" to a root
object that still holds "k" selects the listing entry for "k". -/
theorem c4_restore_view_witness :
    ∃ j : Nat,
      (restoreView (.obj [("k", .null)])
          ⟨.removeKey [] "k", .addKey [] "k" .null, [], "k"⟩).2.selectedIndex = (j : Int) ∧
      j < (updateTreeEntries (.obj [("k", .null)]) []).2.length ∧
      ∃ e, ((updateTreeEntries (.obj [("k", .null)]) []).2)[j]? = some e ∧
        e.key = "k" :=
  (c4_restore_view_selection (.obj [("k", .null)])
      ⟨.removeKey [] "k", .addKey [] "k" .null, [], "k"⟩).2.2.2.1
    ⟨⟨"k", "k", .null⟩, by decide, rfl⟩

/-- C3 (amended): `ExecuteEditValue` (and `UpdateJsonValue`) overwrite an
existing child in place, but the absent-key and out-of-range cases are not
no-ops: on an object parent an absent key is inserted at the end of the
member order; on an array parent an index at or beyond the length (below
`max_size`) silently enlarges the array with nulls and then writes position
`i`.  `SetValue` is a no-op only when the parent is an array and the key
fails integer parsing, and — for `UpdateJsonValue`, which checks the parent
kind instead of throwing — when the parent is not a container. -/
theorem c3_set_value_behavior :
    (∀ (d : Json) (path : List String) (pos : List Seg) (fs : List (String × Json))
        (k : String) (oldV v : Json),
      resolveStrict d path = some pos → getAt d pos = some (.obj fs) →
      lookupKey fs k = some oldV →
      executeEditValue d path k v = (modAt d pos (objSetJ k v), true) ∧
      updateJsonValueV d path k v = modAt d pos (objSetJ k v) ∧
      lookupKey (objSet fs k v) k = some v ∧
      (objSet fs k v).map Prod.fst = fs.map Prod.fst) ∧
    (∀ (d : Json) (path : List String) (pos : List Seg) (fs : List (String × Json))
        (k : String) (v : Json),
      resolveStrict d path = some pos → getAt d pos = some (.obj fs) →
      lookupKey fs k = none →
      executeEditValue d path k v = (modAt d pos (objSetJ k v), true) ∧
      updateJsonValueV d path k v = modAt d pos (objSetJ k v) ∧
      objSet fs k v = fs ++ [(k, v)]) ∧
    (∀ (d : Json) (path : List String) (pos : List Seg) (xs : List Json)
        (k : String) (i : Nat) (v : Json),
      resolveStrict d path = some pos → getAt d pos = some (.arr xs) →
      stoulModel k = some i → xs.length ≤ i → i < arrMax →
      executeEditValue d path k v = (modAt d pos (arrSetExtend i v), true) ∧
      updateJsonValueV d path k v = modAt d pos (arrSetExtend i v) ∧
      arrSetExtend i v (.arr xs) =
        .arr ((xs ++ List.replicate (i + 1 - xs.length) Json.null).set i v) ∧
      ((xs ++ List.replicate (i + 1 - xs.length) Json.null).set i v).length = i + 1) ∧
    (∀ (d : Json) (path : List String) (pos : List Seg) (xs : List Json)
        (k : String) (v : Json),
      resolveStrict d path = some pos → getAt d pos = some (.arr xs) →
      stoulModel k = none →
      executeEditValue d path k v = (d, true) ∧ updateJsonValueV d path k v = d) ∧
    (∀ (d : Json) (path : List String) (pos : List Seg) (j : Json)
        (k : String) (v : Json),
      resolveStrict d path = some pos → getAt d pos = some j →
      kindOf j ≠ .object → kindOf j ≠ .array →
      updateJsonValueV d path k v = d) := by
  refine ⟨?_, ?_, ?_, ?_, ?_⟩
  · intro d path pos fs k oldV v hres hget hk
    refine ⟨?_, ?_, ?_, ?_⟩
    · simp [executeEditValue, getNode_of_resolveStrict hres, nodeAt, hget]
    · simp [updateJsonValueV, getNode_of_resolveStrict hres, nodeAt, hget]
    · simp [lookupKey_objSet]
    · exact keys_objSet_of_hasKey v (by simp [hasKey, hk])
  · intro d path pos fs k v hres hget hk
    refine ⟨?_, ?_, ?_⟩
    · simp [executeEditValue, getNode_of_resolveStrict hres, nodeAt, hget]
    · simp [updateJsonValueV, getNode_of_resolveStrict hres, nodeAt, hget]
    · exact objSet_append_absent v (by simp [hasKey, hk])
  · intro d path pos xs k i v hres hget hs hlen hmax
    refine ⟨?_, ?_, rfl, ?_⟩
    · simp [executeEditValue, getNode_of_resolveStrict hres, nodeAt, hget, hs, hmax]
    · simp [updateJsonValueV, getNode_of_resolveStrict hres, nodeAt, hget, hs, hmax]
    · simp only [List.length_set, List.length_append, List.length_replicate]
      omega
  · intro d path pos xs k v hres hget hs
    constructor
    · simp [executeEditValue, getNode_of_resolveStrict hres, nodeAt, hget, hs]
    · simp [updateJsonValueV, getNode_of_resolveStrict hres, nodeAt, hget, hs]
  · intro d path pos j k v hres hget hno hna
    cases j with
    | obj fs => exact absurd rfl hno
    | arr xs => exact absurd rfl hna
    | null => simp [updateJsonValueV, getNode_of_resolveStrict hres, nodeAt, hget]
    | bool b => simp [updateJsonValueV, getNode_of_resolveStrict hres, nodeAt, hget]
    | num n => simp [updateJsonValueV, getNode_of_resolveStrict hres, nodeAt, hget]
    | str s2 => simp [updateJsonValueV, getNode_of_resolveStrict hres, nodeAt, hget]

/-- Counterexample for C3 as stated: `SetValue` with an absent key on an
object parent, and with an out-of-range index on an array parent, is not a
no-op: the key is inserted (the document changes) and the array is enlarged
to length six. -/
theorem c3_absent_key_counterexample :
    executeEditValue (.obj []) [] "k" (.num 1) = (.obj [("k", .num 1)], true) ∧
    updateJsonValueV (.obj []) [] "k" (.num 1) = .obj [("k", .num 1)] ∧
    Json.obj [("k", .num 1)] ≠ .obj [] ∧
    executeEditValue (.arr [.num 1, .num 2]) [] "5" .null =
      (.arr [.num 1, .num 2, .null, .null, .null, .null], true) ∧
    Json.arr [.num 1, .num 2, .null, .null, .null, .null] ≠ .arr [.num 1, .num 2] := by
  refine ⟨rfl, rfl, by simp, rfl, by simp⟩

/-- Witness for C3 (amended): in-place overwrite of `"k"` in `{"k":0}`, the
insertion of `"k"` into `{}`, the enlargement of `[1,2]` by index `"5"`, and
the no-op on a non-numeric key over an array parent. -/
theorem c3_set_value_witness :
    (executeEditValue (.obj [("k", .num 0)]) [] "k" (.num 9) =
      (modAt (.obj [("k", .num 0)]) [] (objSetJ "k" (.num 9)), true)) ∧
    (objSet [("k", .num 0)] "k" (.num 9)).map Prod.fst =
      [("k", Json.num 0)].map Prod.fst ∧
    objSet ([] : List (String × Json)) "k" (.num 1) = [] ++ [("k", .num 1)] ∧
    executeEditValue (.arr [.num 1, .num 2]) [] "5" .null =
      (modAt (.arr [.num 1, .num 2]) [] (arrSetExtend 5 .null), true) ∧
    executeEditValue (.arr [.num 1, .num 2]) [] "zz" .null = (.arr [.num 1, .num 2], true) ∧
    updateJsonValueV (.num 3) [] "k" .null = .num 3 := by
  refine ⟨?_, ?_, ?_, ?_, ?_, ?_⟩
  · exact (c3_set_value_behavior.1 (.obj [("k", .num 0)]) [] [] [("k", .num 0)]
      "k" (.num 0) (.num 9) rfl rfl rfl).1
  · exact (c3_set_value_behavior.1 (.obj [("k", .num 0)]) [] [] [("k", .num 0)]
      "k" (.num 0) (.num 9) rfl rfl rfl).2.2.2
  · exact (c3_set_value_behavior.2.1 (.obj []) [] [] [] "k" (.num 1) rfl rfl rfl).2.2
  · exact (c3_set_value_behavior.2.2.1 (.arr [.num 1, .num 2]) [] [] [.num 1, .num 2]
      "5" 5 .null rfl rfl (by decide) (by decide) (by decide)).1
  · exact (c3_set_value_behavior.2.2.2.1 (.arr [.num 1, .num 2]) [] []
      [.num 1, .num 2] "zz" .null rfl rfl (by decide)).1
  · exact c3_set_value_behavior.2.2.2.2 (.num 3) [] [] (.num 3) "k" .null rfl
      (getAt_nil _) (by decide) (by decide)

/-- C8: when the object at the current path contains both the selected key
and a distinct cleaned new key, `OnRenameSubmit` rejects the rename before
any mutation: the resulting editor state differs only in the hint message
"Error: This key is already in use." — the document, the history stacks,
the listing, the selection and the modal state are unchanged. -/
theorem c8_rename_collision_rejected (st : EditorState) (pos : List Seg)
    (fs : List (String × Json)) (oldK newK : String)
    (hres : resolveStrict st.doc st.currentPath = some pos)
    (hobj : getAt st.doc pos = some (.obj fs))
    (hcur : getCurrentSelectionKey st.entries st.selectedIndex = oldK)
    (hclean : cleanStringForJson st.renameKeyInput = newK)
    (_hold : hasKey fs oldK = true)
    (hnew : hasKey fs newK = true)
    (hne : newK ≠ oldK)
    (hnempty : newK ≠ "") :
    onRenameSubmit st = { st with editorHint := "Error: This key is already in use." } := by
  simp only [onRenameSubmit, getNode_of_resolveStrict hres, nodeAt, hobj,
    Option.getD_some, hclean, hcur]
  simp [hne, hnew, hnempty]

/-- Witness for C8: on `{"a":1,"b":2}` with the listing entry "a" selected
and the input "b", the rename is rejected with only the hint changed. -/
theorem c8_rename_collision_witness :
    onRenameSubmit
      { doc := .obj [("a", .num 1), ("b", .num 2)], currentPath := [],
        entries := [⟨"a", "a", .number⟩, ⟨"b", "b", .number⟩], selectedIndex := 0,
        renameKeyInput := "b", editorHint := "", modalState := 3,
        history := ⟨[], []⟩ } =
    { doc := .obj [("a", .num 1), ("b", .num 2)], currentPath := [],
      entries := [⟨"a", "a", .number⟩, ⟨"b", "b", .number⟩], selectedIndex := 0,
      renameKeyInput := "b", editorHint := "Error: This key is already in use.",
      modalState := 3, history := ⟨[], []⟩ } :=
  c8_rename_collision_rejected _ [] [("a", .num 1), ("b", .num 2)] "a" "b"
    rfl rfl rfl rfl (by decide) (by decide) (by decide) (by decide)

/-- C9: submitting a rename whose cleaned new key equals the selected key
`k` is not caught by the duplicate-key rejection (which fires only when the
new key differs), so the flow invokes `ExecuteRenameKey(path, k, k)` — as
the pushed history action records — and that call removes `k` from the
object entirely: the resulting document carries the object with `k` erased
and its value lost, instead of being left unchanged. -/
theorem c9_rename_same_key_removes (st : EditorState) (pos : List Seg)
    (fs : List (String × Json)) (k : String)
    (hres : resolveStrict st.doc st.currentPath = some pos)
    (hobj : getAt st.doc pos = some (.obj fs))
    (hnodup : (fs.map Prod.fst).Nodup)
    (hcur : getCurrentSelectionKey st.entries st.selectedIndex = k)
    (hclean : cleanStringForJson st.renameKeyInput = k)
    (hk : hasKey fs k = true)
    (hnempty : k ≠ "") :
    (executeRenameKey st.doc st.currentPath k k).1 =
      setAt st.doc pos (.obj (objErase fs k)) ∧
    (onRenameSubmit st).doc = setAt st.doc pos (.obj (objErase fs k)) ∧
    lookupKey (objErase fs k) k = none ∧
    (onRenameSubmit st).history.undoStack =
      ({ undoClos := .renameKey st.currentPath k k,
         redoClos := .renameKey st.currentPath k k,
         path := st.currentPath, focusKey := k } : EditAction) :: st.history.undoStack := by
  obtain ⟨v0, hv0⟩ : ∃ v, lookupKey fs k = some v := by
    rw [hasKey] at hk
    exact Option.isSome_iff_exists.mp hk
  have hexec : executeRenameKey st.doc st.currentPath k k =
      (setAt st.doc pos (.obj (objErase fs k)), true) := by
    simp only [executeRenameKey, getNode_of_resolveStrict hres, nodeAt, hobj,
      Option.getD_some, hk, if_true, hv0, Option.getD_some, objSet_lookup_self hv0]
  have hd2res : resolveStrict (setAt st.doc pos (.obj (objErase fs k))) st.currentPath =
      some pos := resolveStrict_modAt _ _ hres
  have hd2get : getAt (setAt st.doc pos (.obj (objErase fs k))) pos =
      some (.obj (objErase fs k)) := by
    rw [setAt, getAt_modAt, hobj]
    rfl
  have hflowdoc : (onRenameSubmit st).doc = setAt st.doc pos (.obj (objErase fs k)) ∧
      (onRenameSubmit st).history.undoStack =
      ({ undoClos := .renameKey st.currentPath k k,
         redoClos := .renameKey st.currentPath k k,
         path := st.currentPath, focusKey := k } : EditAction) :: st.history.undoStack := by
    simp only [onRenameSubmit, getNode_of_resolveStrict hres, nodeAt, hobj,
      Option.getD_some, hclean, hcur, hnempty, if_false, hexec,
      updateTreeEntries_doc hd2res]
    have hne : ¬(k ≠ k ∧ hasKey fs k = true) := by simp
    simp only [hne, if_false]
    constructor
    · rw [selectedNodeDocEffect_obj _ _ hd2res hd2get]
    · simp [HistoryManager.push]
  exact ⟨congrArg Prod.fst hexec, hflowdoc.1, lookupKey_objErase_self hnodup, hflowdoc.2⟩

/-- Witness for C9: on `{"k":5}` with "k" selected and the input "k", the
submit removes the key: the document becomes `{}` and the pushed action
records `ExecuteRenameKey([], "k", "k")` for both undo and redo. -/
theorem c9_rename_same_key_witness :
    (onRenameSubmit
      { doc := .obj [("k", .num 5)], currentPath := [],
        entries := [⟨"k", "k", .number⟩], selectedIndex := 0,
        renameKeyInput := "k", editorHint := "", modalState := 3,
        history := ⟨[], []⟩ }).doc =
      setAt (.obj [("k", .num 5)]) [] (.obj (objErase [("k", .num 5)] "k")) ∧
    lookupKey (objErase [("k", .num 5)] "k") "k" = none :=
  ⟨(c9_rename_same_key_removes
      { doc := .obj [("k", .num 5)], currentPath := [],
        entries := [⟨"k", "k", .number⟩], selectedIndex := 0,
        renameKeyInput := "k", editorHint := "", modalState := 3,
        history := ⟨[], []⟩ } [] [("k", .num 5)] "k" rfl rfl (by decide) rfl rfl
      (by decide) (by decide)).2.1,
   (c9_rename_same_key_removes
      { doc := .obj [("k", .num 5)], currentPath := [],
        entries := [⟨"k", "k", .number⟩], selectedIndex := 0,
        renameKeyInput := "k", editorHint := "", modalState := 3,
        history := ⟨[], []⟩ } [] [("k", .num 5)] "k" rfl rfl (by decide) rfl rfl
      (by decide) (by decide)).2.2.1⟩

/-! ### Decimal round trip: `std::to_string` then `std::stoul` -/

theorem digitChar_lt (d : Nat) (h : d < 10) :
    (digitChar d).isDigit = true ∧ (digitChar d).toNat - 48 = d ∧
    isSpaceChar (digitChar d) = false ∧ digitChar d ≠ '+' ∧ digitChar d ≠ '-' := by
  interval_cases d <;> exact ⟨by decide, by decide, by decide, by decide, by decide⟩

theorem decDigitsGo_spec : ∀ (fuel n : Nat), n < fuel →
    decDigitsGo fuel n ≠ [] ∧
    (∀ c ∈ decDigitsGo fuel n, c.isDigit = true) ∧
    List.foldl (fun acc c => acc * 10 + (c.toNat - 48)) 0 (decDigitsGo fuel n) = n := by
  intro fuel
  induction fuel with
  | zero => intro n h; omega
  | succ f ih =>
      intro n h
      by_cases h10 : n < 10
      · obtain ⟨hd1, hd2, _, _, _⟩ := digitChar_lt n h10
        refine ⟨by simp [decDigitsGo, h10], ?_, ?_⟩
        · intro c hc
          simp only [decDigitsGo, h10, if_pos] at hc
          simp only [List.mem_singleton] at hc
          rw [hc]
          exact hd1
        · simp [decDigitsGo, h10, hd2]
      · have hdiv : n / 10 < f := by
          have h1 : n / 10 < n := Nat.div_lt_self (by omega) (by omega)
          omega
        obtain ⟨ih1, ih2, ih3⟩ := ih (n / 10) hdiv
        obtain ⟨hd1, hd2, _, _, _⟩ := digitChar_lt (n % 10) (Nat.mod_lt n (by omega))
        refine ⟨by simp [decDigitsGo, h10], ?_, ?_⟩
        · intro c hc
          simp only [decDigitsGo, h10, if_false, List.mem_append,
            List.mem_singleton] at hc
          rcases hc with hc | hc
          · exact ih2 c hc
          · rw [hc]
            exact hd1
        · simp only [decDigitsGo, h10, if_false, List.foldl_append, ih3,
            List.foldl_cons, List.foldl_nil, hd2]
          omega

theorem takeWhileDigits_self {cs : List Char} (h : ∀ c ∈ cs, c.isDigit = true) :
    cs.takeWhile (fun c => c.isDigit) = cs := by
  induction cs with
  | nil => rfl
  | cons c cs ih =>
      simp only [List.takeWhile_cons, h c (List.mem_cons_self c cs), if_pos]
      rw [ih (fun x hx => h x (List.mem_cons_of_mem c hx))]

theorem stoulModel_natToDecimal (n : Nat) :
    stoulModel (natToDecimal n) = if n < ulongMod then some n else none := by
  have hspec := decDigitsGo_spec (n + 1) n (by omega)
  obtain ⟨hne, hdig, hfold⟩ := hspec
  have htostr : (natToDecimal n).toList = decDigitsGo (n + 1) n := rfl
  rw [stoulModel, htostr]
  cases hds : decDigitsGo (n + 1) n with
  | nil => exact absurd hds hne
  | cons c cs =>
      have hc : c.isDigit = true := hdig c (by rw [hds]; exact List.mem_cons_self c cs)
      have hcsp : isSpaceChar c = false := by
        have h48 : 48 ≤ c.toNat ∧ c.toNat ≤ 57 := by
          rw [Char.isDigit] at hc
          simp only [Bool.and_eq_true, decide_eq_true_eq] at hc
          exact ⟨hc.1, hc.2⟩
        simp only [isSpaceChar, Bool.or_eq_false_iff]
        refine ⟨⟨⟨⟨⟨?_, ?_⟩, ?_⟩, ?_⟩, ?_⟩, ?_⟩ <;>
          · simp only [decide_eq_false_iff_not]
            intro hcontra
            rw [hcontra] at h48
            revert h48
            decide
      have h48 : 48 ≤ c.toNat ∧ c.toNat ≤ 57 := by
        rw [Char.isDigit] at hc
        simp only [Bool.and_eq_true, decide_eq_true_eq] at hc
        exact ⟨hc.1, hc.2⟩
      have hplus : c ≠ '+' := by
        intro hcontra
        rw [hcontra] at h48
        revert h48
        decide
      have hminus : c ≠ '-' := by
        intro hcontra
        rw [hcontra] at h48
        revert h48
        decide
      have hdw : (c :: cs).dropWhile isSpaceChar = c :: cs := by
        simp [List.dropWhile_cons, hcsp]
      rw [hdw]
      have hall : ∀ x ∈ c :: cs, x.isDigit = true := by
        rw [← hds]
        exact hdig
      have hstd : stoulDigits (c :: cs) false =
          if n < ulongMod then some n else none := by
        rw [stoulDigits]
        simp only [takeWhileDigits_self hall, List.isEmpty_cons, if_neg]
        have hm : List.foldl (fun acc c => acc * 10 + (c.toNat - 48)) 0 (c :: cs) = n := by
          rw [← hds]
          exact hfold
        rw [hm]
        by_cases hle : ulongMod ≤ n
        · have h2 : ¬(n < ulongMod) := by omega
          simp [hle, h2]
        · have h2 : n < ulongMod := by omega
          simp [hle, h2]
      split
      · rename_i rest heq
        rw [List.cons.injEq] at heq
        exact absurd heq.1 hplus
      · rename_i rest heq
        rw [List.cons.injEq] at heq
        exact absurd heq.1 hminus
      · exact hstd

/-! ### Write-collapse lemmas -/

theorem modKey_congr {fs : List (String × Json)} {k : String} {F G : Json → Json}
    (h : ∀ v, lookupKey fs k = some v → F v = G v) : modKey fs k F = modKey fs k G := by
  induction fs with
  | nil => rfl
  | cons p fs ih =>
      obtain ⟨a, w⟩ := p
      by_cases h2 : a = k
      · subst h2
        simp [modKey, h w (by simp [lookupKey])]
      · simp only [modKey, h2, if_false]
        rw [ih (fun v hv => h v (by simp [lookupKey, h2, hv]))]

theorem modNth_congr {xs : List Json} {i : Nat} {F G : Json → Json}
    (h : ∀ v, xs[i]? = some v → F v = G v) : modNth xs i F = modNth xs i G := by
  induction xs generalizing i with
  | nil => rfl
  | cons x xs ih =>
      cases i with
      | zero =>
          simp only [modNth]
          rw [h x (by simp)]
      | succ j =>
          simp only [modNth]
          rw [ih (fun v hv => h v (by simpa using hv))]

theorem modAt_funext {pos : List Seg} : ∀ {d : Json} {f g : Json → Json},
    (∀ v, getAt d pos = some v → f v = g v) → modAt d pos f = modAt d pos g := by
  induction pos with
  | nil =>
      intro d f g h
      rw [modAt_nil, modAt_nil, h d (getAt_nil d)]
  | cons s p ih =>
      intro d f g h
      cases s with
      | key k =>
          cases d with
          | obj fs =>
              simp only [modAt]
              congr 1
              apply modKey_congr
              intro v hv
              apply ih
              intro w hw
              apply h
              simp only [getAt, hv]
              exact hw
          | null => rfl
          | bool b => rfl
          | num n => rfl
          | str s2 => rfl
          | arr xs => rfl
      | idx i =>
          cases d with
          | arr xs =>
              simp only [modAt]
              congr 1
              apply modNth_congr
              intro v hv
              apply ih
              intro w hw
              apply h
              simp only [getAt, hv]
              exact hw
          | null => rfl
          | bool b => rfl
          | num n => rfl
          | str s2 => rfl
          | obj fs => rfl

theorem modAt_id (pos : List Seg) : ∀ (d : Json), modAt d pos (fun v => v) = d := by
  induction pos with
  | nil =>
      intro d
      rw [modAt_nil]
  | cons s p ih =>
      intro d
      cases s with
      | key k =>
          cases d with
          | obj fs =>
              simp only [modAt]
              have h2 : (fun v => modAt v p (fun w => w)) = fun v => v :=
                funext fun v => ih v
              rw [h2, modKey_id]
          | null => rfl
          | bool b => rfl
          | num n => rfl
          | str s2 => rfl
          | arr xs => rfl
      | idx i =>
          cases d with
          | arr xs =>
              simp only [modAt]
              have h2 : (fun v => modAt v p (fun w => w)) = fun v => v :=
                funext fun v => ih v
              rw [h2, modNth_id]
          | null => rfl
          | bool b => rfl
          | num n => rfl
          | str s2 => rfl
          | obj fs => rfl

theorem setAt_self {d v : Json} {pos : List Seg} (h : getAt d pos = some v) :
    setAt d pos v = d := by
  rw [setAt]
  have : modAt d pos (fun _ => v) = modAt d pos (fun w => w) := by
    apply modAt_funext
    intro w hw
    rw [h] at hw
    cases hw
    rfl
  rw [this]
  exact modAt_id pos d

theorem setAt_setAt (d : Json) (pos : List Seg) (v w : Json) :
    setAt (setAt d pos v) pos w = setAt d pos w := by
  rw [setAt, setAt, setAt, modAt_comp]

theorem getAt_setAt {d : Json} {pos : List Seg} {n : Json} (v : Json)
    (h : getAt d pos = some n) : getAt (setAt d pos v) pos = some v := by
  rw [setAt, getAt_modAt, h]
  rfl

theorem modAt_eq_setAt {d n : Json} {pos : List Seg} {f : Json → Json}
    (h : getAt d pos = some n) : modAt d pos f = setAt d pos (f n) := by
  rw [setAt]
  apply modAt_funext
  intro v hv
  rw [h] at hv
  cases hv
  rfl

/-! ### Association-list facts for the operation cycles -/

theorem objErase_absent {fs : List (String × Json)} {k : String}
    (h : hasKey fs k = false) : objErase fs k = fs := by
  induction fs with
  | nil => rfl
  | cons p fs ih =>
      obtain ⟨a, w⟩ := p
      simp only [hasKey, lookupKey, Option.isSome] at h
      by_cases h2 : a = k
      · simp [h2] at h
      · simp only [h2, if_false] at h
        simp only [hasKey] at ih
        simp [objErase, h2, ih h]

theorem objErase_append_ne {fs : List (String × Json)} {k o : String} (v : Json)
    (h : k ≠ o) : objErase (fs ++ [(k, v)]) o = objErase fs o ++ [(k, v)] := by
  induction fs with
  | nil => simp [objErase, h]
  | cons p fs ih =>
      obtain ⟨a, w⟩ := p
      by_cases h2 : a = o
      · simp [objErase, h2]
      · simp [objErase, h2, ih]

theorem hasKey_objErase_self {fs : List (String × Json)} {k : String}
    (hn : (fs.map Prod.fst).Nodup) : hasKey (objErase fs k) k = false := by
  simp [hasKey, lookupKey_objErase_self hn]

theorem insertAtL_eraseIdx {xs : List Json} {i : Nat} {v : Json}
    (h : xs[i]? = some v) : insertAtL (xs.eraseIdx i) i v = xs := by
  induction xs generalizing i with
  | nil => cases h
  | cons x xs ih =>
      cases i with
      | zero =>
          simp only [List.getElem?_cons_zero] at h
          cases h
          simp [List.eraseIdx, insertAtL]
      | succ j =>
          simp only [List.getElem?_cons_succ] at h
          simp [List.eraseIdx, insertAtL, ih h]

theorem keys_append_nodup {fs : List (String × Json)} {k : String} (v : Json)
    (hn : (fs.map Prod.fst).Nodup) (h : hasKey fs k = false) :
    ((fs ++ [(k, v)]).map Prod.fst).Nodup := by
  rw [List.map_append]
  simp only [List.map_cons, List.map_nil]
  rw [List.nodup_append]
  refine ⟨hn, List.nodup_singleton k, ?_⟩
  intro a ha hb
  simp only [List.mem_singleton] at hb
  subst hb
  obtain ⟨⟨b, w⟩, hmem, hfst⟩ := List.mem_map.mp ha
  cases hfst
  have h2 := (lookupKey_eq_some_iff_mem hn).mpr hmem
  simp [hasKey, h2] at h

/-! ### Listing entries and the pane effect on array parents -/

theorem updateTreeEntries_arr_key {d : Json} {path : List String} {pos : List Seg}
    {xs : List Json} (h : resolveStrict d path = some pos)
    (harr : getAt d pos = some (.arr xs)) {e : TreeEntry}
    (he : e ∈ (updateTreeEntries d path).2) :
    e.key = ".." ∨ ∃ j, j < xs.length ∧ e.key = natToDecimal j := by
  simp only [updateTreeEntries, getNode_of_resolveStrict h, nodeAt, harr,
    Option.getD_some] at he
  rw [List.mem_append] at he
  rcases he with he | he
  · left
    by_cases hp : path.isEmpty <;> simp [hp] at he <;> simp [he]
  · right
    obtain ⟨j, hj, he2⟩ := List.mem_map.mp he
    rw [List.mem_range] at hj
    exact ⟨j, hj, by rw [← he2]⟩

theorem selectedNodeDocEffect_arr {d : Json} {path : List String} {pos : List Seg}
    {xs : List Json} (idx : Int)
    (h : resolveStrict d path = some pos) (harr : getAt d pos = some (.arr xs)) :
    selectedNodeDocEffect d path (updateTreeEntries d path).2 idx = d := by
  simp only [selectedNodeDocEffect]
  by_cases h1 : idx < 0
  · simp [h1]
  · simp only [h1, if_false]
    cases h2 : ((updateTreeEntries d path).2)[idx.toNat]? with
    | none => rfl
    | some e =>
        have hmem : e ∈ (updateTreeEntries d path).2 := by
          exact List.getElem?_mem h2
        rcases updateTreeEntries_arr_key h harr hmem with hk | ⟨j, hj, hk⟩
        · simp [hk]
        · by_cases hdots : e.key = ".."
          · simp [hdots]
          · simp only [hdots, if_false, getNode_of_resolveStrict h, nodeAt, harr,
              Option.getD_some]
            rw [hk, stoulModel_natToDecimal]
            by_cases hj2 : j < ulongMod
            · simp only [hj2, if_pos, hj, if_true]
            · simp [hj2]

/-- Document identity of `RestoreView` when the action's path resolves
without side effects to a container node. -/
theorem restoreView_doc {d : Json} {pos : List Seg} (a : EditAction)
    (h : resolveStrict d a.path = some pos)
    (hnode : (∃ fs, getAt d pos = some (.obj fs)) ∨ (∃ xs, getAt d pos = some (.arr xs))) :
    (restoreView d a).1 = d := by
  simp only [restoreView, updateTreeEntries_doc h]
  rcases hnode with ⟨fs, hget⟩ | ⟨xs, hget⟩
  · exact selectedNodeDocEffect_obj _ _ h hget
  · exact selectedNodeDocEffect_arr _ h hget

/-! ### Well-formedness of the local operations -/

theorem wfFields_objSet {fs : List (String × Json)} {k : String} {v : Json}
    (h : wfFields fs = true) (hv : wfJ v = true) : wfFields (objSet fs k v) = true := by
  induction fs with
  | nil => simp [objSet, wfFields, hv]
  | cons p fs ih =>
      obtain ⟨a, w⟩ := p
      simp only [wfFields, Bool.and_eq_true] at h
      by_cases h2 : a = k
      · simp [objSet, h2, wfFields, hv, h.2]
      · simp [objSet, h2, wfFields, h.1, ih h.2]

theorem wfFields_objErase {fs : List (String × Json)} {k : String}
    (h : wfFields fs = true) : wfFields (objErase fs k) = true := by
  induction fs with
  | nil => simp [objErase, wfFields]
  | cons p fs ih =>
      obtain ⟨a, w⟩ := p
      simp only [wfFields, Bool.and_eq_true] at h
      by_cases h2 : a = k
      · simp [objErase, h2, h.2]
      · simp [objErase, h2, wfFields, h.1, ih h.2]

theorem wfFields_append_single {fs : List (String × Json)} {k : String} {v : Json}
    (h : wfFields fs = true) (hv : wfJ v = true) :
    wfFields (fs ++ [(k, v)]) = true := by
  induction fs with
  | nil => simp [wfFields, hv]
  | cons p fs ih =>
      obtain ⟨a, w⟩ := p
      simp only [wfFields, Bool.and_eq_true] at h
      simp [wfFields, h.1, ih h.2]

theorem wfList_append_single {xs : List Json} {v : Json}
    (h : wfList xs = true) (hv : wfJ v = true) : wfList (xs ++ [v]) = true := by
  induction xs with
  | nil => simp [wfList, hv]
  | cons x xs ih =>
      simp only [wfList, Bool.and_eq_true] at h
      simp [wfList, h.1, ih h.2]

theorem wfList_dropLast {xs : List Json} (h : wfList xs = true) :
    wfList xs.dropLast = true := by
  induction xs with
  | nil => simp [wfList]
  | cons x xs ih =>
      simp only [wfList, Bool.and_eq_true] at h
      cases xs with
      | nil => simp [wfList]
      | cons y ys =>
          simp only [List.dropLast_cons₂, wfList, Bool.and_eq_true]
          exact ⟨h.1, by simpa [wfList] using ih h.2⟩

theorem wfList_eraseIdx {xs : List Json} {i : Nat} (h : wfList xs = true) :
    wfList (xs.eraseIdx i) = true := by
  induction xs generalizing i with
  | nil => simp [wfList]
  | cons x xs ih =>
      simp only [wfList, Bool.and_eq_true] at h
      cases i with
      | zero => simpa [List.eraseIdx] using h.2
      | succ j => simp [List.eraseIdx, wfList, h.1, ih h.2]

theorem wfList_insertAtL {xs : List Json} {i : Nat} {v : Json}
    (h : wfList xs = true) (hv : wfJ v = true) : wfList (insertAtL xs i v) = true := by
  induction xs generalizing i with
  | nil =>
      cases i with
      | zero => simp [insertAtL, wfList, hv]
      | succ j => simp [insertAtL, wfList]
  | cons x xs ih =>
      simp only [wfList, Bool.and_eq_true] at h
      cases i with
      | zero => simp [insertAtL, wfList, hv, h.1, h.2]
      | succ j => simp [insertAtL, wfList, h.1, ih h.2]

theorem keys_objSet_nodup {fs : List (String × Json)} {k : String} (v : Json)
    (hn : (fs.map Prod.fst).Nodup) : ((objSet fs k v).map Prod.fst).Nodup := by
  by_cases h : hasKey fs k = true
  · rw [keys_objSet_of_hasKey v h]
    exact hn
  · rw [objSet_append_absent v (by simpa using h)]
    exact keys_append_nodup v hn (by simpa using h)

theorem keys_objErase_nodup {fs : List (String × Json)} {k : String}
    (hn : (fs.map Prod.fst).Nodup) : ((objErase fs k).map Prod.fst).Nodup := by
  rw [keys_objErase]
  exact hn.erase k

/-- The central reordering fact: erasing a bound key and re-adding its value
at the end of the order changes the object only up to member order. -/
theorem canon_obj_erase_append {fs : List (String × Json)} {k : String} {v : Json}
    (hn : (fs.map Prod.fst).Nodup) (hk : lookupKey fs k = some v) :
    canon (.obj (objErase fs k ++ [(k, v)])) = canon (.obj fs) := by
  apply canon_obj_congr
  · rw [List.map_append, keys_objErase]
    simp only [List.map_cons, List.map_nil]
    rw [List.nodup_append]
    refine ⟨hn.erase k, List.nodup_singleton k, ?_⟩
    intro a ha hb
    simp only [List.mem_singleton] at hb
    subst hb
    exact ((List.Nodup.mem_erase_iff hn).mp ha).1 rfl
  · exact hn
  · intro k'
    rw [lookupKey_append]
    by_cases h2 : k' = k
    · subst h2
      rw [lookupKey_objErase_self hn]
      simp [lookupKey, hk]
    · rw [lookupKey_objErase fs k k' h2]
      cases hl : lookupKey fs k' with
      | some w => simp
      | none =>
          have h3 : ¬(k = k') := fun h3 => h2 h3.symm
          simp [lookupKey, h3]

/-- Writing back the canonical image of the parent node leaves the document
unchanged up to object order. -/
theorem canon_setAt_parent {d parent n : Json} {pos : List Seg}
    (hget : getAt d pos = some parent) (hwf : wfJ d = true)
    (hc : canon n = canon parent) : canon (setAt d pos n) = canon d := by
  have h1 : canon (setAt d pos n) = canon (modAt d pos (fun v => v)) := by
    rw [setAt]
    apply modAt_congr pos hwf hwf rfl
    intro v w hv hw
    rw [hget] at hv hw
    cases hv
    cases hw
    exact hc
  rw [h1, modAt_id]

theorem objErase_append_cons {fs : List (String × Json)} {k : String} (v : Json)
    (rest : List (String × Json)) (h : hasKey fs k = false) :
    objErase (fs ++ (k, v) :: rest) k = fs ++ rest := by
  induction fs with
  | nil => simp [objErase]
  | cons p fs ih =>
      obtain ⟨a, w⟩ := p
      simp only [hasKey, lookupKey, Option.isSome] at h
      by_cases ha : a = k
      · simp [ha] at h
      · simp only [if_neg ha] at h
        simp [objErase, ha, ih h]

/-! ### The exact undo/redo cycle of each committed operation -/

theorem commit_cycle_exact (op : EOp) (d : Json) (hwf : wfJ d = true)
    (hv : commitValid op d) :
    ∃ (pos : List Seg) (parent n1 n2 : Json),
      resolveStrict d (commitAction op d).path = some pos ∧
      getAt d pos = some parent ∧
      commitApply op d = setAt d pos n1 ∧
      runClos (commitAction op d).undoClos (setAt d pos n1) = (setAt d pos n2, true) ∧
      runClos (commitAction op d).redoClos (setAt d pos n2) = (setAt d pos n1, true) ∧
      ((∃ fs, n1 = Json.obj fs) ∨ (∃ xs, n1 = Json.arr xs)) ∧
      ((∃ fs, n2 = Json.obj fs) ∨ (∃ xs, n2 = Json.arr xs)) ∧
      canon n2 = canon parent ∧
      wfJ n1 = true ∧ wfJ n2 = true := by
  cases op with
  | editValue p k oldV newV =>
      obtain ⟨pos, fs, hres, hobj, hk, hne, hwfv⟩ := hv
      have hparent := getAt_wf hwf hobj
      have hparts := wfJ_obj_iff.mp hparent
      have hres1 : resolveStrict (setAt d pos (Json.obj (objSet fs k newV))) p = some pos :=
        resolveStrict_modAt p _ hres
      have hget1 := getAt_setAt (Json.obj (objSet fs k newV)) hobj
      refine ⟨pos, .obj fs, .obj (objSet fs k newV), .obj fs, hres, hobj, ?_, ?_, ?_,
        Or.inl ⟨_, rfl⟩, Or.inl ⟨_, rfl⟩, rfl, ?_, hparent⟩
      · show updateJsonValueV d p k newV = _
        simp only [updateJsonValueV, getNode_of_resolveStrict hres, nodeAt, hobj,
          Option.getD_some]
        exact modAt_eq_setAt hobj
      · show executeEditValue _ p k oldV = _
        simp only [executeEditValue, getNode_of_resolveStrict hres1, nodeAt, hget1,
          Option.getD_some]
        rw [modAt_eq_setAt hget1, setAt_setAt]
        show (setAt d pos (.obj (objSet (objSet fs k newV) k oldV)), true) = _
        rw [objSet_objSet_same, objSet_lookup_self hk]
      · rw [setAt_self hobj]
        show executeEditValue d p k newV = _
        simp only [executeEditValue, getNode_of_resolveStrict hres, nodeAt, hobj,
          Option.getD_some]
        rw [modAt_eq_setAt hobj]
        rfl
      · rw [wfJ_obj_iff]
        exact ⟨keys_objSet_nodup newV hparts.1, wfFields_objSet hparts.2 hwfv⟩
  | addKey p k =>
      obtain ⟨pos, fs, hres, hobj, hk⟩ := hv
      have hparent := getAt_wf hwf hobj
      have hparts := wfJ_obj_iff.mp hparent
      have hnk : hasKey fs k = false := by simp [hasKey, hk]
      have habs : objSet fs k Json.null = fs ++ [(k, Json.null)] :=
        objSet_append_absent Json.null hnk
      have hres1 : resolveStrict (setAt d pos (Json.obj (objSet fs k Json.null))) p = some pos :=
        resolveStrict_modAt p _ hres
      have hget1 := getAt_setAt (Json.obj (objSet fs k Json.null)) hobj
      refine ⟨pos, .obj fs, .obj (objSet fs k Json.null), .obj fs, hres, hobj, ?_, ?_, ?_,
        Or.inl ⟨_, rfl⟩, Or.inl ⟨_, rfl⟩, rfl, ?_, hparent⟩
      · show (executeAddKey d p k Json.null).1 = _
        simp only [executeAddKey, getNode_of_resolveStrict hres, nodeAt, hobj,
          Option.getD_some]
        rw [modAt_eq_setAt hobj]
        rfl
      · show executeRemoveKey _ p k = _
        simp only [executeRemoveKey, getNode_of_resolveStrict hres1, nodeAt, hget1,
          Option.getD_some]
        rw [modAt_eq_setAt hget1, setAt_setAt]
        show (setAt d pos (.obj (objErase (objSet fs k Json.null) k)), true) = _
        rw [habs, objErase_append_absent Json.null hnk]
      · rw [setAt_self hobj]
        show executeAddKey d p k Json.null = _
        simp only [executeAddKey, getNode_of_resolveStrict hres, nodeAt, hobj,
          Option.getD_some]
        rw [modAt_eq_setAt hobj]
        rfl
      · rw [wfJ_obj_iff]
        exact ⟨keys_objSet_nodup Json.null hparts.1, wfFields_objSet hparts.2 rfl⟩
  | addArrayElem p v =>
      obtain ⟨pos, xs, hres, harr, hwfv⟩ := hv
      have hparent := getAt_wf hwf harr
      have hlist := wfJ_arr_iff.mp hparent
      have hres1 : resolveStrict (setAt d pos (Json.arr (xs ++ [v]))) p = some pos :=
        resolveStrict_modAt p _ hres
      have hget1 := getAt_setAt (Json.arr (xs ++ [v])) harr
      refine ⟨pos, .arr xs, .arr (xs ++ [v]), .arr xs, hres, harr, ?_, ?_, ?_,
        Or.inr ⟨_, rfl⟩, Or.inr ⟨_, rfl⟩, rfl, ?_, hparent⟩
      · show (executeAddArrayElement d p v).1 = _
        simp only [executeAddArrayElement, getNode_of_resolveStrict hres, nodeAt, harr,
          Option.getD_some]
        rw [modAt_eq_setAt harr]
        rfl
      · show executeRemoveLastArrayElement _ p = _
        simp only [executeRemoveLastArrayElement, getNode_of_resolveStrict hres1, nodeAt,
          hget1, Option.getD_some]
        have hne : (xs ++ [v]).isEmpty = false := by simp
        rw [hne]
        simp only [Bool.false_eq_true, if_false]
        rw [modAt_eq_setAt hget1, setAt_setAt]
        show (setAt d pos (.arr (xs ++ [v]).dropLast), true) = _
        rw [List.dropLast_concat]
      · rw [setAt_self harr]
        show executeAddArrayElement d p v = _
        simp only [executeAddArrayElement, getNode_of_resolveStrict hres, nodeAt, harr,
          Option.getD_some]
        rw [modAt_eq_setAt harr]
        rfl
      · rw [wfJ_arr_iff]
        exact wfList_append_single hlist hwfv
  | removeKey p k oldV =>
      obtain ⟨pos, fs, hres, hobj, hk⟩ := hv
      have hparent := getAt_wf hwf hobj
      have hparts := wfJ_obj_iff.mp hparent
      have hwfv : wfJ oldV = true := wfFields_lookup hparts.2 hk
      have hnk : hasKey (objErase fs k) k = false := hasKey_objErase_self hparts.1
      have hres1 : resolveStrict (setAt d pos (Json.obj (objErase fs k))) p = some pos :=
        resolveStrict_modAt p _ hres
      have hget1 := getAt_setAt (Json.obj (objErase fs k)) hobj
      have hres2 : resolveStrict (setAt d pos (Json.obj (objErase fs k ++ [(k, oldV)]))) p
          = some pos := resolveStrict_modAt p _ hres
      have hget2 := getAt_setAt (Json.obj (objErase fs k ++ [(k, oldV)])) hobj
      refine ⟨pos, .obj fs, .obj (objErase fs k), .obj (objErase fs k ++ [(k, oldV)]),
        hres, hobj, ?_, ?_, ?_, Or.inl ⟨_, rfl⟩, Or.inl ⟨_, rfl⟩,
        canon_obj_erase_append hparts.1 hk, ?_, ?_⟩
      · show (executeRemoveKey d p k).1 = _
        simp only [executeRemoveKey, getNode_of_resolveStrict hres, nodeAt, hobj,
          Option.getD_some]
        rw [modAt_eq_setAt hobj]
        rfl
      · show executeAddKey _ p k oldV = _
        simp only [executeAddKey, getNode_of_resolveStrict hres1, nodeAt, hget1,
          Option.getD_some]
        rw [modAt_eq_setAt hget1]
        show (setAt _ pos (.obj (objSet (objErase fs k) k oldV)), true) = _
        rw [objSet_append_absent oldV hnk, setAt_setAt]
      · show executeRemoveKey _ p k = _
        simp only [executeRemoveKey, getNode_of_resolveStrict hres2, nodeAt, hget2,
          Option.getD_some]
        rw [modAt_eq_setAt hget2]
        show (setAt _ pos (.obj (objErase (objErase fs k ++ [(k, oldV)]) k)), true) = _
        rw [objErase_append_absent oldV hnk, setAt_setAt]
      · rw [wfJ_obj_iff]
        exact ⟨keys_objErase_nodup hparts.1, wfFields_objErase hparts.2⟩
      · rw [wfJ_obj_iff]
        exact ⟨keys_append_nodup oldV (keys_objErase_nodup hparts.1) hnk,
          wfFields_append_single (wfFields_objErase hparts.2) hwfv⟩
  | removeArrayElem p i oldV =>
      obtain ⟨pos, xs, hres, harr, hidx⟩ := hv
      have hparent := getAt_wf hwf harr
      have hlist := wfJ_arr_iff.mp hparent
      have hlt : i < xs.length := by
        by_contra hge
        rw [List.getElem?_eq_none (by omega)] at hidx
        cases hidx
      have hres1 : resolveStrict (setAt d pos (Json.arr (xs.eraseIdx i))) p = some pos :=
        resolveStrict_modAt p _ hres
      have hget1 := getAt_setAt (Json.arr (xs.eraseIdx i)) harr
      refine ⟨pos, .arr xs, .arr (xs.eraseIdx i), .arr xs, hres, harr, ?_, ?_, ?_,
        Or.inr ⟨_, rfl⟩, Or.inr ⟨_, rfl⟩, rfl, ?_, hparent⟩
      · show (executeRemoveArrayElement d p i).1 = _
        simp only [executeRemoveArrayElement, getNode_of_resolveStrict hres, nodeAt, harr,
          Option.getD_some, hlt, if_true]
        rw [modAt_eq_setAt harr]
        rfl
      · show executeInsertArrayElement _ p i oldV = _
        simp only [executeInsertArrayElement, getNode_of_resolveStrict hres1, nodeAt, hget1,
          Option.getD_some]
        have hle : i ≤ (xs.eraseIdx i).length := by
          rw [List.length_eraseIdx_of_lt hlt]
          omega
        rw [if_pos hle, modAt_eq_setAt hget1]
        show (setAt _ pos (.arr (insertAtL (xs.eraseIdx i) i oldV)), true) = _
        rw [insertAtL_eraseIdx hidx, setAt_setAt]
      · rw [setAt_self harr]
        show executeRemoveArrayElement d p i = _
        simp only [executeRemoveArrayElement, getNode_of_resolveStrict hres, nodeAt, harr,
          Option.getD_some, hlt, if_true]
        rw [modAt_eq_setAt harr]
        rfl
      · rw [wfJ_arr_iff]
        exact wfList_eraseIdx hlist
  | renameKey p o nk =>
      obtain ⟨pos, fs, hres, hobj, hsome, hnone, hne⟩ := hv
      obtain ⟨v, hv⟩ := Option.isSome_iff_exists.mp hsome
      have hne' : nk ≠ o := Ne.symm hne
      have hparent := getAt_wf hwf hobj
      have hparts := wfJ_obj_iff.mp hparent
      have hwfv : wfJ v = true := wfFields_lookup hparts.2 hv
      have hhk : hasKey fs o = true := by simp [hasKey, hv]
      have hfsnk : hasKey fs nk = false := by simp [hasKey, hnone]
      have hAol : lookupKey (objErase fs o) o = none := lookupKey_objErase_self hparts.1
      have hAo : hasKey (objErase fs o) o = false := by simp [hasKey, hAol]
      have hAnkl : lookupKey (objErase fs o) nk = none := by
        rw [lookupKey_objErase fs o nk hne']
        exact hnone
      have hAnk : hasKey (objErase fs o) nk = false := by simp [hasKey, hAnkl]
      have hg1nk : lookupKey (objErase fs o ++ [(nk, v)]) nk = some v := by
        simp [lookupKey_append, hAnkl, lookupKey]
      have hg1o : hasKey (objErase fs o ++ [(nk, v)]) o = false := by
        simp [hasKey, lookupKey_append, hAol, lookupKey, hne']
      have hg2o : lookupKey (objErase fs o ++ [(o, v)]) o = some v := by
        simp [lookupKey_append, hAol, lookupKey]
      have hg2nk : hasKey (objErase fs o ++ [(o, v)]) nk = false := by
        simp [hasKey, lookupKey_append, hAnkl, lookupKey, hne]
      have hres1 : resolveStrict (setAt d pos (Json.obj (objErase fs o ++ [(nk, v)]))) p
          = some pos := resolveStrict_modAt p _ hres
      have hget1 := getAt_setAt (Json.obj (objErase fs o ++ [(nk, v)])) hobj
      have hres2 : resolveStrict (setAt d pos (Json.obj (objErase fs o ++ [(o, v)]))) p
          = some pos := resolveStrict_modAt p _ hres
      have hget2 := getAt_setAt (Json.obj (objErase fs o ++ [(o, v)])) hobj
      refine ⟨pos, .obj fs, .obj (objErase fs o ++ [(nk, v)]),
        .obj (objErase fs o ++ [(o, v)]), hres, hobj, ?_, ?_, ?_,
        Or.inl ⟨_, rfl⟩, Or.inl ⟨_, rfl⟩,
        canon_obj_erase_append hparts.1 hv, ?_, ?_⟩
      · show (executeRenameKey d p o nk).1 = _
        simp only [executeRenameKey, getNode_of_resolveStrict hres, nodeAt, hobj,
          Option.getD_some, hhk, if_true, hv, Option.getD]
        rw [objSet_append_absent v hfsnk, objErase_append_ne v hne']
      · show executeRenameKey _ p nk o = _
        simp only [executeRenameKey, getNode_of_resolveStrict hres1, nodeAt, hget1,
          Option.getD_some, hasKey, hg1nk, Option.isSome_some, if_true, Option.getD]
        rw [objSet_append_absent v hg1o, List.append_assoc, List.singleton_append,
          objErase_append_cons v _ hAnk, setAt_setAt]
      · show executeRenameKey _ p o nk = _
        simp only [executeRenameKey, getNode_of_resolveStrict hres2, nodeAt, hget2,
          Option.getD_some, hasKey, hg2o, Option.isSome_some, if_true, Option.getD]
        rw [objSet_append_absent v hg2nk, List.append_assoc, List.singleton_append,
          objErase_append_cons v _ hAo, setAt_setAt]
      · rw [wfJ_obj_iff]
        exact ⟨keys_append_nodup v (keys_objErase_nodup hparts.1) hAnk,
          wfFields_append_single (wfFields_objErase hparts.2) hwfv⟩
      · rw [wfJ_obj_iff]
        exact ⟨keys_append_nodup v (keys_objErase_nodup hparts.1) hAo,
          wfFields_append_single (wfFields_objErase hparts.2) hwfv⟩

/-- **C5.** For every document state immediately after a committed primitive
mutation whose commit preconditions held (edit value with a changed value,
add of an absent key, array append, remove key, remove array element, rename
to a fresh distinct key), `PerformUndo` followed by `PerformRedo` reproduces
the post-operation document and history state exactly, including order, and
no exception escapes either closure.  (The add flow does not check that the
key is absent; an add over an existing key is reachable and breaks exactness,
see the counterexample.) -/
theorem c5_undo_redo_roundtrip (op : EOp) (d : Json) (h : HistoryManager)
    (hwf : wfJ d = true) (hv : commitValid op d) :
    (performUndoDoc (commitStep op (d, h))).2 = true ∧
    performRedoDoc (performUndoDoc (commitStep op (d, h))).1 =
      (commitStep op (d, h), true) := by
  obtain ⟨pos, parent, n1, n2, hres, hget, happly, hundo, hredo, hn1, hn2, hcanon,
    hwf1, hwf2⟩ := commit_cycle_exact op d hwf hv
  have hstep : commitStep op (d, h) =
      (setAt d pos n1, ⟨commitAction op d :: h.undoStack, []⟩) := by
    simp only [commitStep, HistoryManager.push]
    rw [happly]
  have hres2 : resolveStrict (setAt d pos n2) (commitAction op d).path = some pos :=
    resolveStrict_modAt _ _ hres
  have hget2 : getAt (setAt d pos n2) pos = some n2 := getAt_setAt _ hget
  have hres1 : resolveStrict (setAt d pos n1) (commitAction op d).path = some pos :=
    resolveStrict_modAt _ _ hres
  have hget1 : getAt (setAt d pos n1) pos = some n1 := getAt_setAt _ hget
  have hrv2 : (restoreView (setAt d pos n2) (commitAction op d)).1 = setAt d pos n2 := by
    apply restoreView_doc _ hres2
    rcases hn2 with ⟨fs, hfs⟩ | ⟨xs, hxs⟩
    · exact Or.inl ⟨fs, by rw [hget2, hfs]⟩
    · exact Or.inr ⟨xs, by rw [hget2, hxs]⟩
  have hrv1 : (restoreView (setAt d pos n1) (commitAction op d)).1 = setAt d pos n1 := by
    apply restoreView_doc _ hres1
    rcases hn1 with ⟨fs, hfs⟩ | ⟨xs, hxs⟩
    · exact Or.inl ⟨fs, by rw [hget1, hfs]⟩
    · exact Or.inr ⟨xs, by rw [hget1, hxs]⟩
  have hu : performUndoDoc (commitStep op (d, h)) =
      ((setAt d pos n2, ⟨h.undoStack, [commitAction op d]⟩), true) := by
    rw [hstep]
    simp only [performUndoDoc, HistoryManager.canUndo, HistoryManager.undoStep,
      List.isEmpty_cons, Bool.not_false, if_true, hundo, hrv2]
  refine ⟨by rw [hu], ?_⟩
  rw [hu]
  simp only [performRedoDoc, HistoryManager.canRedo, HistoryManager.redoStep,
    List.isEmpty_cons, Bool.not_false, if_true, hredo, hrv1]
  rw [hstep]

/-- Counterexample limiting C5 to adds of absent keys: `OnAddSubmit` never
checks that the key is absent, so committing an add of the existing key
`"k"` over `{"k":5,"m":6}` is reachable.  The commit overwrites in place
(`{"k":null,"m":6}`), its undo closure erases the key, and its redo closure
re-inserts it at the end of the order, so Undo-then-Redo yields
`{"m":6,"k":null}`, not the post-operation state. -/
theorem c5_add_existing_counterexample :
    (commitStep (.addKey [] "k")
        (Json.obj [("k", .num 5), ("m", .num 6)], ⟨[], []⟩)).1 =
      Json.obj [("k", Json.null), ("m", .num 6)] ∧
    (performRedoDoc (performUndoDoc (commitStep (.addKey [] "k")
        (Json.obj [("k", .num 5), ("m", .num 6)], ⟨[], []⟩))).1).1.1 =
      Json.obj [("m", .num 6), ("k", Json.null)] ∧
    Json.obj [("m", .num 6), ("k", Json.null)] ≠
      Json.obj [("k", Json.null), ("m", .num 6)] := by
  refine ⟨rfl, rfl, by simp⟩

/-- Witness for C5: deleting `"k"` from `{"k":5}`, then Undo, then Redo,
lands back on the post-deletion state with both flags true. -/
theorem c5_undo_redo_roundtrip_witness :
    (performUndoDoc (commitStep (.removeKey [] "k" (.num 5))
        (Json.obj [("k", .num 5)], ⟨[], []⟩))).2 = true ∧
    performRedoDoc (performUndoDoc (commitStep (.removeKey [] "k" (.num 5))
        (Json.obj [("k", .num 5)], ⟨[], []⟩))).1 =
      (commitStep (.removeKey [] "k" (.num 5))
        (Json.obj [("k", .num 5)], ⟨[], []⟩), true) :=
  c5_undo_redo_roundtrip (.removeKey [] "k" (.num 5)) (Json.obj [("k", .num 5)])
    ⟨[], []⟩ rfl ⟨[], [("k", .num 5)], rfl, rfl, rfl⟩

/-! ### Transport of reads across canon-equal objects -/

theorem lookupKey_of_perm {l₁ l₂ : List (String × Json)}
    (hn : (l₁.map Prod.fst).Nodup) (hp : l₁.Perm l₂) (k : String) :
    lookupKey l₁ k = lookupKey l₂ k := by
  have hn₂ : (l₂.map Prod.fst).Nodup := (hp.map Prod.fst).nodup_iff.mp hn
  cases h₂ : lookupKey l₂ k with
  | some v =>
      rw [lookupKey_eq_some_iff_mem hn₂] at h₂
      exact (lookupKey_eq_some_iff_mem hn).mpr (hp.mem_iff.mpr h₂)
  | none =>
      cases h₁ : lookupKey l₁ k with
      | none => rfl
      | some v =>
          rw [lookupKey_eq_some_iff_mem hn] at h₁
          have h₃ := (lookupKey_eq_some_iff_mem hn₂).mpr (hp.mem_iff.mp h₁)
          rw [h₂] at h₃
          cases h₃

theorem canon_obj_inv {m : Json} {l : List (String × Json)}
    (h : canon m = canon (.obj l)) : ∃ gs, m = .obj gs := by
  have h2 := congrArg kindOf h
  rw [kindOf_canon, kindOf_canon] at h2
  cases m <;> first | exact ⟨_, rfl⟩ | simp [kindOf] at h2

theorem canon_arr_inv {m : Json} {l : List Json}
    (h : canon m = canon (.arr l)) : ∃ ys, m = .arr ys := by
  have h2 := congrArg kindOf h
  rw [kindOf_canon, kindOf_canon] at h2
  cases m <;> first | exact ⟨_, rfl⟩ | simp [kindOf] at h2

theorem setAt_wf {d n : Json} {pos : List Seg} (hd : wfJ d = true)
    (hn : wfJ n = true) : wfJ (setAt d pos n) = true :=
  modAt_wf hd (fun _ _ _ => hn)

theorem canonList_insertAtL (xs : List Json) (i : Nat) (v : Json) :
    canonList (insertAtL xs i v) = insertAtL (canonList xs) i (canon v) := by
  induction xs generalizing i with
  | nil =>
      cases i with
      | zero => simp [insertAtL, canonList]
      | succ j => simp [insertAtL, canonList]
  | cons x xs ih =>
      cases i with
      | zero => simp [insertAtL, canonList]
      | succ j => simp [insertAtL, canonList, ih]

theorem canonList_eraseIdx (xs : List Json) (i : Nat) :
    canonList (xs.eraseIdx i) = (canonList xs).eraseIdx i := by
  induction xs generalizing i with
  | nil => simp [canonList]
  | cons x xs ih =>
      cases i with
      | zero => simp [List.eraseIdx, canonList]
      | succ j => simp [List.eraseIdx, canonList, ih]

theorem canonList_dropLast (xs : List Json) :
    canonList xs.dropLast = (canonList xs).dropLast := by
  induction xs with
  | nil => simp [canonList]
  | cons x xs ih =>
      cases xs with
      | nil => simp [canonList]
      | cons y ys =>
          simp only [List.dropLast_cons₂, canonList, ih]

theorem wfList_mem {xs : List Json} {v : Json} (h : wfList xs = true) (hm : v ∈ xs) :
    wfJ v = true := by
  induction xs with
  | nil => cases hm
  | cons x xs ih =>
      simp only [wfList, Bool.and_eq_true] at h
      cases hm with
      | head => exact h.1
      | tail _ hm2 => exact ih h.2 hm2

/-- Transport of the strict resolution and the parent read from the exact
post-operation document to any canon-equal well-formed document. -/
theorem canon_state_transport {d e n1 : Json} {p : List String} {pos : List Seg}
    (hwfS : wfJ (setAt d pos n1) = true) (hwfe : wfJ e = true)
    (heS : canon e = canon (setAt d pos n1))
    (hres1 : resolveStrict (setAt d pos n1) p = some pos)
    (hget1 : getAt (setAt d pos n1) pos = some n1) :
    resolveStrict e p = some pos ∧
      ∃ m, getAt e pos = some m ∧ canon m = canon n1 ∧ wfJ m = true := by
  constructor
  · rw [resolveStrict_congr p hwfe hwfS heS]
    exact hres1
  · have h := getAt_canon_rel pos hwfe hwfS heS
    rw [hget1] at h
    cases hge : getAt e pos with
    | none =>
        rw [hge] at h
        simp at h
    | some m =>
        rw [hge] at h
        simp only [Option.map_some', Option.some.injEq] at h
        exact ⟨m, rfl, h, getAt_wf hwfe hge⟩

/-- Writing a canon-image of the original parent into a canon-equal document
restores the original document up to object order. -/
theorem canon_setAt_conclusion {d e n1 X P : Json} {pos : List Seg}
    (hwfe : wfJ e = true) (hwfS : wfJ (setAt d pos n1) = true)
    (heS : canon e = canon (setAt d pos n1))
    (hP : getAt d pos = some P) (hX : canon X = canon P) :
    canon (setAt e pos X) = canon d := by
  have h1 : canon (setAt e pos X) = canon (setAt (setAt d pos n1) pos P) :=
    modAt_congr pos hwfe hwfS heS (fun _ _ _ _ => hX)
  rw [setAt_setAt, setAt_self hP] at h1
  exact h1

/-- The undo closure of a committed operation, run on any well-formed
document canon-equal to the exact post-operation document, succeeds, lands
canon-equal to the pre-operation document, preserves well-formedness, and
its `RestoreView` leaves the document unchanged. -/
theorem commit_cycle_canon (op : EOp) (d e : Json) (hwf : wfJ d = true)
    (hwfe : wfJ e = true) (hv : commitValid op d)
    (he : canon e = canon (commitApply op d)) :
    ∃ e', runClos (commitAction op d).undoClos e = (e', true) ∧
      canon e' = canon d ∧ wfJ e' = true ∧
      (restoreView e' (commitAction op d)).1 = e' := by
  cases op with
  | editValue p k oldV newV =>
      obtain ⟨pos, fs, hres, hobj, hk, hne, hwfv⟩ := hv
      have hparent := getAt_wf hwf hobj
      have hparts := wfJ_obj_iff.mp hparent
      have hwfold : wfJ oldV = true := wfFields_lookup hparts.2 hk
      have happly : commitApply (.editValue p k oldV newV) d =
          setAt d pos (.obj (objSet fs k newV)) := by
        show updateJsonValueV d p k newV = _
        simp only [updateJsonValueV, getNode_of_resolveStrict hres, nodeAt, hobj,
          Option.getD_some]
        exact modAt_eq_setAt hobj
      have hwfn1 : wfJ (Json.obj (objSet fs k newV)) = true := by
        rw [wfJ_obj_iff]
        exact ⟨keys_objSet_nodup newV hparts.1, wfFields_objSet hparts.2 hwfv⟩
      have hwfS : wfJ (setAt d pos (Json.obj (objSet fs k newV))) = true :=
        setAt_wf hwf hwfn1
      have heS : canon e = canon (setAt d pos (Json.obj (objSet fs k newV))) := by
        rw [← happly]
        exact he
      obtain ⟨hres_e, m, hge, hcm, hwfm⟩ := canon_state_transport hwfS hwfe heS
        (resolveStrict_modAt p _ hres) (getAt_setAt _ hobj)
      obtain ⟨gs, rfl⟩ := canon_obj_inv hcm
      have hng : (gs.map Prod.fst).Nodup := (wfJ_obj_iff.mp hwfm).1
      have hfieldsg : wfFields gs = true := (wfJ_obj_iff.mp hwfm).2
      have hlook := canon_obj_lookup hng (keys_objSet_nodup newV hparts.1) hcm
      refine ⟨setAt e pos (.obj (objSet gs k oldV)), ?_, ?_, ?_, ?_⟩
      · show executeEditValue e p k oldV = _
        simp only [executeEditValue, getNode_of_resolveStrict hres_e, nodeAt, hge,
          Option.getD_some]
        rw [modAt_eq_setAt hge]
        rfl
      · apply canon_setAt_conclusion hwfe hwfS heS hobj
        apply canon_obj_congr (keys_objSet_nodup oldV hng) hparts.1
        intro k'
        rw [lookupKey_objSet]
        by_cases hkk : k' = k
        · subst hkk
          rw [if_pos rfl, hk]
        · rw [if_neg hkk]
          have h3 := hlook k'
          rw [lookupKey_objSet, if_neg hkk] at h3
          exact h3
      · exact setAt_wf hwfe (by
          rw [wfJ_obj_iff]
          exact ⟨keys_objSet_nodup oldV hng, wfFields_objSet hfieldsg hwfold⟩)
      · have hres' : resolveStrict (setAt e pos (.obj (objSet gs k oldV))) p = some pos :=
          resolveStrict_modAt p _ hres_e
        have hget' := getAt_setAt (Json.obj (objSet gs k oldV)) hge
        exact restoreView_doc _ hres' (Or.inl ⟨_, hget'⟩)
  | addKey p k =>
      obtain ⟨pos, fs, hres, hobj, hk⟩ := hv
      have hparent := getAt_wf hwf hobj
      have hparts := wfJ_obj_iff.mp hparent
      have happly : commitApply (.addKey p k) d =
          setAt d pos (.obj (objSet fs k Json.null)) := by
        show (executeAddKey d p k Json.null).1 = _
        simp only [executeAddKey, getNode_of_resolveStrict hres, nodeAt, hobj,
          Option.getD_some]
        rw [modAt_eq_setAt hobj]
        rfl
      have hwfn1 : wfJ (Json.obj (objSet fs k Json.null)) = true := by
        rw [wfJ_obj_iff]
        exact ⟨keys_objSet_nodup Json.null hparts.1, wfFields_objSet hparts.2 rfl⟩
      have hwfS : wfJ (setAt d pos (Json.obj (objSet fs k Json.null))) = true :=
        setAt_wf hwf hwfn1
      have heS : canon e = canon (setAt d pos (Json.obj (objSet fs k Json.null))) := by
        rw [← happly]
        exact he
      obtain ⟨hres_e, m, hge, hcm, hwfm⟩ := canon_state_transport hwfS hwfe heS
        (resolveStrict_modAt p _ hres) (getAt_setAt _ hobj)
      obtain ⟨gs, rfl⟩ := canon_obj_inv hcm
      have hng : (gs.map Prod.fst).Nodup := (wfJ_obj_iff.mp hwfm).1
      have hfieldsg : wfFields gs = true := (wfJ_obj_iff.mp hwfm).2
      have hlook := canon_obj_lookup hng (keys_objSet_nodup Json.null hparts.1) hcm
      refine ⟨setAt e pos (.obj (objErase gs k)), ?_, ?_, ?_, ?_⟩
      · show executeRemoveKey e p k = _
        simp only [executeRemoveKey, getNode_of_resolveStrict hres_e, nodeAt, hge,
          Option.getD_some]
        rw [modAt_eq_setAt hge]
        rfl
      · apply canon_setAt_conclusion hwfe hwfS heS hobj
        apply canon_obj_congr (keys_objErase_nodup hng) hparts.1
        intro k'
        by_cases hkk : k' = k
        · subst hkk
          rw [lookupKey_objErase_self hng, hk]
        · rw [lookupKey_objErase gs k k' hkk]
          have h3 := hlook k'
          rw [lookupKey_objSet, if_neg hkk] at h3
          exact h3
      · exact setAt_wf hwfe (by
          rw [wfJ_obj_iff]
          exact ⟨keys_objErase_nodup hng, wfFields_objErase hfieldsg⟩)
      · have hres' : resolveStrict (setAt e pos (.obj (objErase gs k))) p = some pos :=
          resolveStrict_modAt p _ hres_e
        have hget' := getAt_setAt (Json.obj (objErase gs k)) hge
        exact restoreView_doc _ hres' (Or.inl ⟨_, hget'⟩)
  | addArrayElem p v =>
      obtain ⟨pos, xs, hres, harr, hwfv⟩ := hv
      have hparent := getAt_wf hwf harr
      have hlist := wfJ_arr_iff.mp hparent
      have happly : commitApply (.addArrayElem p v) d =
          setAt d pos (.arr (xs ++ [v])) := by
        show (executeAddArrayElement d p v).1 = _
        simp only [executeAddArrayElement, getNode_of_resolveStrict hres, nodeAt, harr,
          Option.getD_some]
        rw [modAt_eq_setAt harr]
        rfl
      have hwfn1 : wfJ (Json.arr (xs ++ [v])) = true := by
        rw [wfJ_arr_iff]
        exact wfList_append_single hlist hwfv
      have hwfS : wfJ (setAt d pos (Json.arr (xs ++ [v]))) = true := setAt_wf hwf hwfn1
      have heS : canon e = canon (setAt d pos (Json.arr (xs ++ [v]))) := by
        rw [← happly]
        exact he
      obtain ⟨hres_e, m, hge, hcm, hwfm⟩ := canon_state_transport hwfS hwfe heS
        (resolveStrict_modAt p _ hres) (getAt_setAt _ harr)
      obtain ⟨ys, rfl⟩ := canon_arr_inv hcm
      have hlisty : wfList ys = true := wfJ_arr_iff.mp hwfm
      have hlen : ys.length = (xs ++ [v]).length := canon_arr_length hcm
      have hempty : ys.isEmpty = false := by
        cases ys with
        | nil => simp at hlen
        | cons a l => rfl
      have hcl : canonList ys = canonList (xs ++ [v]) := by
        have h3 := hcm
        simp only [canon, Json.arr.injEq] at h3
        exact h3
      refine ⟨setAt e pos (.arr ys.dropLast), ?_, ?_, ?_, ?_⟩
      · show executeRemoveLastArrayElement e p = _
        simp only [executeRemoveLastArrayElement, getNode_of_resolveStrict hres_e, nodeAt,
          hge, Option.getD_some, hempty, Bool.false_eq_true, if_false]
        rw [modAt_eq_setAt hge]
        rfl
      · apply canon_setAt_conclusion hwfe hwfS heS harr
        simp only [canon, Json.arr.injEq]
        rw [canonList_dropLast, hcl, canonList_append]
        show (canonList xs ++ [canon v]).dropLast = canonList xs
        rw [List.dropLast_concat]
      · exact setAt_wf hwfe (by rw [wfJ_arr_iff]; exact wfList_dropLast hlisty)
      · have hres' : resolveStrict (setAt e pos (.arr ys.dropLast)) p = some pos :=
          resolveStrict_modAt p _ hres_e
        have hget' := getAt_setAt (Json.arr ys.dropLast) hge
        exact restoreView_doc _ hres' (Or.inr ⟨_, hget'⟩)
  | removeKey p k oldV =>
      obtain ⟨pos, fs, hres, hobj, hk⟩ := hv
      have hparent := getAt_wf hwf hobj
      have hparts := wfJ_obj_iff.mp hparent
      have hwfold : wfJ oldV = true := wfFields_lookup hparts.2 hk
      have happly : commitApply (.removeKey p k oldV) d =
          setAt d pos (.obj (objErase fs k)) := by
        show (executeRemoveKey d p k).1 = _
        simp only [executeRemoveKey, getNode_of_resolveStrict hres, nodeAt, hobj,
          Option.getD_some]
        rw [modAt_eq_setAt hobj]
        rfl
      have hwfn1 : wfJ (Json.obj (objErase fs k)) = true := by
        rw [wfJ_obj_iff]
        exact ⟨keys_objErase_nodup hparts.1, wfFields_objErase hparts.2⟩
      have hwfS : wfJ (setAt d pos (Json.obj (objErase fs k))) = true := setAt_wf hwf hwfn1
      have heS : canon e = canon (setAt d pos (Json.obj (objErase fs k))) := by
        rw [← happly]
        exact he
      obtain ⟨hres_e, m, hge, hcm, hwfm⟩ := canon_state_transport hwfS hwfe heS
        (resolveStrict_modAt p _ hres) (getAt_setAt _ hobj)
      obtain ⟨gs, rfl⟩ := canon_obj_inv hcm
      have hng : (gs.map Prod.fst).Nodup := (wfJ_obj_iff.mp hwfm).1
      have hfieldsg : wfFields gs = true := (wfJ_obj_iff.mp hwfm).2
      have hlook := canon_obj_lookup hng (keys_objErase_nodup hparts.1) hcm
      refine ⟨setAt e pos (.obj (objSet gs k oldV)), ?_, ?_, ?_, ?_⟩
      · show executeAddKey e p k oldV = _
        simp only [executeAddKey, getNode_of_resolveStrict hres_e, nodeAt, hge,
          Option.getD_some]
        rw [modAt_eq_setAt hge]
        rfl
      · apply canon_setAt_conclusion hwfe hwfS heS hobj
        apply canon_obj_congr (keys_objSet_nodup oldV hng) hparts.1
        intro k'
        rw [lookupKey_objSet]
        by_cases hkk : k' = k
        · subst hkk
          rw [if_pos rfl, hk]
        · rw [if_neg hkk]
          have h3 := hlook k'
          rw [lookupKey_objErase fs k k' hkk] at h3
          exact h3
      · exact setAt_wf hwfe (by
          rw [wfJ_obj_iff]
          exact ⟨keys_objSet_nodup oldV hng, wfFields_objSet hfieldsg hwfold⟩)
      · have hres' : resolveStrict (setAt e pos (.obj (objSet gs k oldV))) p = some pos :=
          resolveStrict_modAt p _ hres_e
        have hget' := getAt_setAt (Json.obj (objSet gs k oldV)) hge
        exact restoreView_doc _ hres' (Or.inl ⟨_, hget'⟩)
  | removeArrayElem p i oldV =>
      obtain ⟨pos, xs, hres, harr, hidx⟩ := hv
      have hparent := getAt_wf hwf harr
      have hlist := wfJ_arr_iff.mp hparent
      have hwfold : wfJ oldV = true := by
        have hmem := List.getElem?_mem hidx
        exact wfList_mem hlist hmem
      have hlt : i < xs.length := by
        by_contra hge2
        rw [List.getElem?_eq_none (by omega)] at hidx
        cases hidx
      have happly : commitApply (.removeArrayElem p i oldV) d =
          setAt d pos (.arr (xs.eraseIdx i)) := by
        show (executeRemoveArrayElement d p i).1 = _
        simp only [executeRemoveArrayElement, getNode_of_resolveStrict hres, nodeAt, harr,
          Option.getD_some, hlt, if_true]
        rw [modAt_eq_setAt harr]
        rfl
      have hwfn1 : wfJ (Json.arr (xs.eraseIdx i)) = true := by
        rw [wfJ_arr_iff]
        exact wfList_eraseIdx hlist
      have hwfS : wfJ (setAt d pos (Json.arr (xs.eraseIdx i))) = true := setAt_wf hwf hwfn1
      have heS : canon e = canon (setAt d pos (Json.arr (xs.eraseIdx i))) := by
        rw [← happly]
        exact he
      obtain ⟨hres_e, m, hge, hcm, hwfm⟩ := canon_state_transport hwfS hwfe heS
        (resolveStrict_modAt p _ hres) (getAt_setAt _ harr)
      obtain ⟨ys, rfl⟩ := canon_arr_inv hcm
      have hlisty : wfList ys = true := wfJ_arr_iff.mp hwfm
      have hlen : ys.length = (xs.eraseIdx i).length := canon_arr_length hcm
      have hle : i ≤ ys.length := by
        rw [hlen, List.length_eraseIdx_of_lt hlt]
        omega
      have hcl : canonList ys = canonList (xs.eraseIdx i) := by
        have h3 := hcm
        simp only [canon, Json.arr.injEq] at h3
        exact h3
      refine ⟨setAt e pos (.arr (insertAtL ys i oldV)), ?_, ?_, ?_, ?_⟩
      · show executeInsertArrayElement e p i oldV = _
        simp only [executeInsertArrayElement, getNode_of_resolveStrict hres_e, nodeAt,
          hge, Option.getD_some, hle, if_true]
        rw [modAt_eq_setAt hge]
        rfl
      · apply canon_setAt_conclusion hwfe hwfS heS harr
        simp only [canon, Json.arr.injEq]
        rw [canonList_insertAtL, hcl, canonList_eraseIdx]
        apply insertAtL_eraseIdx
        rw [canonList_get, hidx]
        rfl
      · exact setAt_wf hwfe (by
          rw [wfJ_arr_iff]
          exact wfList_insertAtL hlisty hwfold)
      · have hres' : resolveStrict (setAt e pos (.arr (insertAtL ys i oldV))) p = some pos :=
          resolveStrict_modAt p _ hres_e
        have hget' := getAt_setAt (Json.arr (insertAtL ys i oldV)) hge
        exact restoreView_doc _ hres' (Or.inr ⟨_, hget'⟩)
  | renameKey p o nk =>
      obtain ⟨pos, fs, hres, hobj, hsome, hnone, hne⟩ := hv
      obtain ⟨v, hvv⟩ := Option.isSome_iff_exists.mp hsome
      have hne' : nk ≠ o := Ne.symm hne
      have hparent := getAt_wf hwf hobj
      have hparts := wfJ_obj_iff.mp hparent
      have hwfv0 : wfJ v = true := wfFields_lookup hparts.2 hvv
      have hhk : hasKey fs o = true := by simp [hasKey, hvv]
      have hfsnk : hasKey fs nk = false := by simp [hasKey, hnone]
      have hAnkl : lookupKey (objErase fs o) nk = none := by
        rw [lookupKey_objErase fs o nk hne']
        exact hnone
      have hAnk : hasKey (objErase fs o) nk = false := by simp [hasKey, hAnkl]
      have hnF1 : (((objErase fs o ++ [(nk, v)]).map Prod.fst)).Nodup :=
        keys_append_nodup v (keys_objErase_nodup hparts.1) hAnk
      have hF1nk : lookupKey (objErase fs o ++ [(nk, v)]) nk = some v := by
        simp [lookupKey_append, hAnkl, lookupKey]
      have happly : commitApply (.renameKey p o nk) d =
          setAt d pos (.obj (objErase fs o ++ [(nk, v)])) := by
        show (executeRenameKey d p o nk).1 = _
        simp only [executeRenameKey, getNode_of_resolveStrict hres, nodeAt, hobj,
          Option.getD_some, hhk, if_true, hvv, Option.getD]
        rw [objSet_append_absent v hfsnk, objErase_append_ne v hne']
      have hwfn1 : wfJ (Json.obj (objErase fs o ++ [(nk, v)])) = true := by
        rw [wfJ_obj_iff]
        exact ⟨hnF1, wfFields_append_single (wfFields_objErase hparts.2) hwfv0⟩
      have hwfS : wfJ (setAt d pos (Json.obj (objErase fs o ++ [(nk, v)]))) = true :=
        setAt_wf hwf hwfn1
      have heS : canon e = canon (setAt d pos (Json.obj (objErase fs o ++ [(nk, v)]))) := by
        rw [← happly]
        exact he
      obtain ⟨hres_e, m, hge, hcm, hwfm⟩ := canon_state_transport hwfS hwfe heS
        (resolveStrict_modAt p _ hres) (getAt_setAt _ hobj)
      obtain ⟨gs, rfl⟩ := canon_obj_inv hcm
      have hng : (gs.map Prod.fst).Nodup := (wfJ_obj_iff.mp hwfm).1
      have hfieldsg : wfFields gs = true := (wfJ_obj_iff.mp hwfm).2
      have hlook := canon_obj_lookup hng hnF1 hcm
      have hgsnk : ∃ w, lookupKey gs nk = some w ∧ canon w = canon v := by
        have h3 := hlook nk
        rw [hF1nk] at h3
        cases hl : lookupKey gs nk with
        | none =>
            rw [hl] at h3
            simp at h3
        | some w =>
            rw [hl] at h3
            simp only [Option.map_some', Option.some.injEq] at h3
            exact ⟨w, rfl, h3⟩
      obtain ⟨w, hgw, hcwv⟩ := hgsnk
      have hwfw : wfJ w = true := wfFields_lookup hfieldsg hgw
      refine ⟨setAt e pos (.obj (objErase (objSet gs o w) nk)), ?_, ?_, ?_, ?_⟩
      · show executeRenameKey e p nk o = _
        simp only [executeRenameKey, getNode_of_resolveStrict hres_e, nodeAt, hge,
          Option.getD_some, hasKey, hgw, Option.isSome_some, if_true, Option.getD]
      · apply canon_setAt_conclusion hwfe hwfS heS hobj
        apply canon_obj_congr (keys_objErase_nodup (keys_objSet_nodup w hng)) hparts.1
        intro k'
        by_cases hkk : k' = nk
        · subst hkk
          rw [lookupKey_objErase_self (keys_objSet_nodup w hng), hnone]
        · rw [lookupKey_objErase _ nk k' hkk, lookupKey_objSet]
          by_cases hko : k' = o
          · subst hko
            rw [if_pos rfl, hvv]
            simp only [Option.map_some']
            rw [hcwv]
          · rw [if_neg hko]
            have h3 := hlook k'
            have hF1k : lookupKey (objErase fs o ++ [(nk, v)]) k' = lookupKey fs k' := by
              rw [lookupKey_append, lookupKey_objErase fs o k' hko]
              cases hl : lookupKey fs k' with
              | some u => rfl
              | none =>
                  have h4 : ¬(nk = k') := fun h4 => hkk h4.symm
                  simp [lookupKey, h4]
            rw [hF1k] at h3
            exact h3
      · exact setAt_wf hwfe (by
          rw [wfJ_obj_iff]
          exact ⟨keys_objErase_nodup (keys_objSet_nodup w hng),
            wfFields_objErase (wfFields_objSet hfieldsg hwfw)⟩)
      · have hres' : resolveStrict (setAt e pos (.obj (objErase (objSet gs o w) nk))) p
            = some pos := resolveStrict_modAt p _ hres_e
        have hget' := getAt_setAt (Json.obj (objErase (objSet gs o w) nk)) hge
        exact restoreView_doc _ hres' (Or.inl ⟨_, hget'⟩)

/-- A single `PerformUndo` from a canon-equal state pops the committed
action, restores a canon-equal pre-operation document, and pushes the action
onto the redo stack. -/
theorem performUndo_canon (op : EOp) (d e : Json) (rest rs : List EditAction)
    (hwf : wfJ d = true) (hwfe : wfJ e = true) (hv : commitValid op d)
    (he : canon e = canon (commitApply op d)) :
    ∃ e', performUndoDoc (e, ⟨commitAction op d :: rest, rs⟩) =
      ((e', ⟨rest, commitAction op d :: rs⟩), true) ∧
      canon e' = canon d ∧ wfJ e' = true := by
  obtain ⟨e', hrun, hcanon, hwfe', hrv⟩ := commit_cycle_canon op d e hwf hwfe hv he
  refine ⟨e', ?_, hcanon, hwfe'⟩
  simp only [performUndoDoc, HistoryManager.canUndo, HistoryManager.undoStep,
    List.isEmpty_cons, Bool.not_false, if_true, hrun, hrv]

/-- One-step unfolding of `undoN`. -/
theorem undoN_succ (n : Nat) (s : Json × HistoryManager) :
    undoN (n + 1) s =
      if (performUndoDoc s).2 = true then undoN n (performUndoDoc s).1
      else ((performUndoDoc s).1, false) := rfl

/-- `n` undo steps decompose into a prefix and a suffix. -/
theorem undoN_add (m k : Nat) (s : Json × HistoryManager) :
    undoN (m + k) s =
      if (undoN m s).2 = true then undoN k (undoN m s).1
      else ((undoN m s).1, false) := by
  induction m generalizing s with
  | zero => simp [undoN]
  | succ m ih =>
      rw [Nat.add_right_comm m 1 k, undoN_succ, undoN_succ]
      cases hr : (performUndoDoc s).2 with
      | true => simp only [hr, if_true, ih]
      | false => simp [hr]

/-- Well-formedness survives a valid commit. -/
theorem commitApply_wf (op : EOp) (d : Json) (hwf : wfJ d = true)
    (hv : commitValid op d) : wfJ (commitApply op d) = true := by
  obtain ⟨pos, parent, n1, n2, hres, hget, happly, hundo, hredo, hn1, hn2, hcanon,
    hwf1, hwf2⟩ := commit_cycle_exact op d hwf hv
  rw [happly]
  exact setAt_wf hwf hwf1

/-- The state after a chain of commits: the resulting document, the pushed
actions on top of the old undo stack, and a cleared redo stack. -/
theorem commitAll_spec : ∀ (ops : List EOp) (d : Json) (h : HistoryManager),
    commitAll ops (d, h) =
      (docAfter d ops,
       ⟨actionsFor d ops ++ h.undoStack,
        if ops.isEmpty then h.redoStack else []⟩) := by
  intro ops
  induction ops with
  | nil => intro d h; rfl
  | cons op ops ih =>
      intro d h
      show commitAll ops (commitStep op (d, h)) = _
      rw [commitStep]
      show commitAll ops (commitApply op d, ⟨commitAction op d :: h.undoStack, []⟩) = _
      rw [ih]
      simp [docAfter, actionsFor, List.append_assoc]

/-- Well-formedness along a valid chain. -/
theorem docAfter_wf : ∀ (ops : List EOp) (d : Json), wfJ d = true →
    ValidSeq d ops → wfJ (docAfter d ops) = true := by
  intro ops
  induction ops with
  | nil => intro d hwf _; exact hwf
  | cons op ops ih =>
      intro d hwf hvs
      cases hvs with
      | cons hv hvs' => exact ih (commitApply op d) (commitApply_wf op d hwf hv) hvs'

/-- Undoing a whole valid chain from any canon-equal final state succeeds
and lands canon-equal to the initial document, consuming exactly the pushed
actions. -/
theorem undoN_all : ∀ (ops : List EOp) (d : Json), wfJ d = true →
    ValidSeq d ops →
    ∀ (e : Json) (us rs : List EditAction), wfJ e = true →
    canon e = canon (docAfter d ops) →
    ∃ e₀ rs', undoN ops.length (e, ⟨actionsFor d ops ++ us, rs⟩) =
      ((e₀, ⟨us, rs'⟩), true) ∧ canon e₀ = canon d ∧ wfJ e₀ = true := by
  intro ops
  induction ops with
  | nil =>
      intro d hwf _ e us rs hwfe he
      exact ⟨e, rs, rfl, he, hwfe⟩
  | cons op ops ih =>
      intro d hwf hvs e us rs hwfe he
      cases hvs with
      | cons hv hvs' =>
          obtain ⟨e₁, rs₁, h1, hc1, hw1⟩ := ih (commitApply op d)
            (commitApply_wf op d hwf hv) hvs' e (commitAction op d :: us) rs hwfe he
          obtain ⟨e₀, h0, hc0, hw0⟩ := performUndo_canon op d e₁ us rs₁ hwf hw1 hv hc1
          refine ⟨e₀, commitAction op d :: rs₁, ?_, hc0, hw0⟩
          have hstack : actionsFor d (op :: ops) ++ us =
              actionsFor (commitApply op d) ops ++ (commitAction op d :: us) := by
            simp [actionsFor]
          show undoN (ops.length + 1) _ = _
          rw [hstack, undoN_add ops.length 1, h1]
          show undoN 1 (e₁, ⟨commitAction op d :: us, rs₁⟩) = _
          rw [undoN]
          rw [h0]
          rfl

/-- **C1** (amended): for every well-formed document and every valid
sequence of committed primitive mutations followed by an equal-length
sequence of Undo calls, every undo closure succeeds and the resulting
document equals the pre-sequence document up to object member order (the
undo stack is fully consumed).  Equality *including key order* fails: the
undo of a delete or rename re-inserts the key at the end of the order, see
the counterexample. -/
theorem c1_round_trip_canon (ops : List EOp) (d : Json)
    (hwf : wfJ d = true) (hvs : ValidSeq d ops) :
    ∃ e₀ rs', undoN ops.length (commitAll ops (d, ⟨[], []⟩)) =
      ((e₀, ⟨[], rs'⟩), true) ∧ canon e₀ = canon d ∧ wfJ e₀ = true := by
  rw [commitAll_spec]
  exact undoN_all ops d hwf hvs (docAfter d ops) [] _ (docAfter_wf ops d hwf hvs) rfl

/-- Counterexample to C1 as stated (key order): deleting `"a"` from
`{"a":1,"b":2}` and undoing re-adds `"a"` at the end, yielding
`{"b":2,"a":1}`, which differs from the pre-sequence document as an ordered
object. -/
theorem c1_key_order_counterexample :
    (undoN 1 (commitAll [.removeKey [] "a" (.num 1)]
      (Json.obj [("a", .num 1), ("b", .num 2)], ⟨[], []⟩))).1.1 =
      Json.obj [("b", .num 2), ("a", .num 1)] ∧
    (undoN 1 (commitAll [.removeKey [] "a" (.num 1)]
      (Json.obj [("a", .num 1), ("b", .num 2)], ⟨[], []⟩))).2 = true ∧
    Json.obj [("b", .num 2), ("a", .num 1)] ≠
      Json.obj [("a", .num 1), ("b", .num 2)] := by
  refine ⟨rfl, rfl, by simp⟩

/-- Witness for C1 (amended): the delete-then-undo run on `{"a":1,"b":2}`
succeeds and lands canon-equal to the original document. -/
theorem c1_round_trip_canon_witness :
    ∃ e₀ rs', undoN 1 (commitAll [.removeKey [] "a" (.num 1)]
      (Json.obj [("a", .num 1), ("b", .num 2)], ⟨[], []⟩)) =
      ((e₀, ⟨[], rs'⟩), true) ∧
      canon e₀ = canon (Json.obj [("a", .num 1), ("b", .num 2)]) ∧ wfJ e₀ = true :=
  c1_round_trip_canon [.removeKey [] "a" (.num 1)]
    (Json.obj [("a", .num 1), ("b", .num 2)]) rfl
    (ValidSeq.cons ⟨[], [("a", .num 1), ("b", .num 2)], rfl, rfl, rfl⟩ (ValidSeq.nil _))
